import Mathlib

/-!
# A verification development for the VGP-tools codec core (`src/Myers/compression.c`)

This file shallowly embeds the length-limited Huffman compressor of
`compression.c` (June 2019 snapshot) in Lean 4 and settles a list of claims
about it.  Machine integers are modelled as `Nat` with explicit `% 2^w`
reductions where the C code can overflow; the C `int` is modelled as `Int`
where sign matters.  Byte buffers are `List Nat` with every entry `< 256`.

Conventions:
* a compressor's histogram is a function `Nat → Nat` consulted on `0..255`,
  each value being the `uint64` counter of the corresponding byte;
* `isbig : Nat` is the machine-endian flag exactly as the C `int isbig`
  (`1` = big endian, `0` = little endian).
-/

set_option maxRecDepth 100000

namespace VGP

/-- `2^64`, the modulus of C `unsigned long long` arithmetic. -/
def U64 : Nat := 2 ^ 64

/-- `2^16`, the modulus of C `unsigned short` arithmetic. -/
def U16 : Nat := 2 ^ 16

/-- `HUFF_CUTOFF` from compression.c line 27: the length limit of the code. -/
def HUFF_CUTOFF : Nat := 12

/-- Conversion of a C unsigned value to `int` by the (universal in practice)
implementation-defined modular wrap to 32 signed bits. -/
def toInt32 (n : Nat) : Int :=
  if n % 2 ^ 32 < 2 ^ 31 then ((n % 2 ^ 32 : Nat) : Int)
  else ((n % 2 ^ 32 : Nat) : Int) - 2 ^ 32

/-- The qsort comparator `HSORT` (compression.c lines 147-151):
`return (HIST[x] - HIST[y]);` — the subtraction happens on `uint64`
(wrapping mod `2^64`) and the result is then converted to `int`. -/
def HSORT (hist : Nat → Nat) (x y : Nat) : Int :=
  toInt32 ((hist x % U64 + U64 - hist y % U64) % U64)

/-- The comparator as a `≤`-style relation used to model the sort:
`x` may be placed before `y` when `HSORT` does not say `x > y`. -/
def hle (hist : Nat → Nat) (x y : Nat) : Prop := HSORT hist x y ≤ 0

instance (hist : Nat → Nat) : DecidableRel (hle hist) := fun x y =>
  inferInstanceAs (Decidable (HSORT hist x y ≤ 0))

/-- The symbol-collection loop of `vcCreateCodec` (compression.c lines 182-190):
walk bytes `0..255`; a byte with positive count joins `code[]`; otherwise, if
the escape slot `ecode` is still negative, the byte is recorded as the escape
symbol and joins `code[]` as well.  Returns the collected list and the final
`ecode`.  The initial `ecode` is `-partial`. -/
def collectCodes (hist : Nat → Nat) : List Nat → Int → List Nat × Int
  | [], e => ([], e)
  | i :: is, e =>
      if 0 < hist i then
        let r := collectCodes hist is e
        (i :: r.1, r.2)
      else if e < 0 then
        let r := collectCodes hist is (i : Int)
        (i :: r.1, r.2)
      else
        collectCodes hist is e

/-- The `code[]` array right before the qsort call, together with `ecode`. -/
def codesAndEsc (hist : Nat → Nat) (part : Bool) : List Nat × Int :=
  collectCodes hist (List.range 256) (if part then -1 else 0)

/-- `qsort(code,ncode,sizeof(int),HSORT)` modelled as a stable sort by the
`HSORT` comparator (glibc's qsort is a stable merge sort in practice, and
stability is what the accompanying test relies on). -/
def sortedCodes (hist : Nat → Nat) (part : Bool) : List Nat :=
  List.insertionSort (hle hist) (codesAndEsc hist part).1

/-- One merge level of the coin-collector filter (compression.c lines
224-250).  `base` is the not-yet-consumed suffix of `countb[j..)`, `prev`
the not-yet-consumed suffix `lcnt[k..)` of the previous row.  Each output
carries the `matrix` bit (`true` = base coin taken) and the `ccnt` weight.
Weights add on `uint64`, hence the `% U64`.  The C loop takes the next base
coin whenever `k >= llen || (j < ncode && countb[j] <= lcnt[k]+lcnt[k+1])`;
equivalently, between two packages it emits the maximal run of base coins
`≤` the current pair sum (`List.span`), which is how it is phrased here so
that the recursion is structural on `prev`. -/
def mergeRow : List Nat → List Nat → List (Bool × Nat)
  | base, p0 :: p1 :: ps =>
      let s := (p0 + p1) % U64
      let t := base.span (fun b => b ≤ s)
      t.1.map (fun b => (true, b)) ++ (false, s) :: mergeRow t.2 ps
  | base, _ => base.map (fun b => (true, b))

/-- Row `HUFF_CUTOFF - k` of the filter: `coinRow cb 0` is the initial row
(the base coins `countb` themselves, count1 at line 209), and each further
`k` applies one pass of the `L`-loop. -/
def coinRow (cb : List Nat) : Nat → List (Bool × Nat)
  | 0 => cb.map (fun w => (true, w))
  | k + 1 => mergeRow cb ((coinRow cb k).map Prod.snd)

/-- The rows visited by the back-trace in visit order: `matrix[1]`,
`matrix[2]`, …, `matrix[HUFF_CUTOFF-1]`, i.e. `coinRow cb 11` down to
`coinRow cb 1`, each projected to its matrix bits. -/
def traceRows (cb : List Nat) : List (List Bool) :=
  (List.range (HUFF_CUTOFF - 1)).map
    (fun t => (coinRow cb (HUFF_CUTOFF - 1 - t)).map Prod.fst)

/-- The step function of the back-trace fold. -/
def btStep (s : Nat × List Nat) (b : Bool) : Nat × List Nat :=
  if b then (s.1 + 1, s.2.set s.1 (s.2.getD s.1 0 + 1)) else s

/-- One level of the back-trace (compression.c lines 253-260), literally:
walk the first `span` matrix bits; each `true` does `leng[j++] += 1`
(the length table is carried as a list over sorted positions). -/
def btLevel (row : List Bool) (span : Nat) (leng : List Nat) :
    Nat × List Nat :=
  (row.take span).foldl
    (fun s b => if b then (s.1 + 1, s.2.set s.1 (s.2.getD s.1 0 + 1)) else s)
    (0, leng)

/-- The full back-trace over the rows, threading `span = 2*(span - j)`
between levels.  Returns the length table over sorted positions and the
final span. -/
def btrace : List (List Bool) → Nat → List Nat → (List Nat × Nat)
  | [], span, leng => (leng, span)
  | r :: rs, span, leng =>
      let s := btLevel r span leng
      btrace rs (2 * (span - s.1)) s.2

/-- The `leng[0..ncode)` table after the complete back-trace, including the
final `for (n = 0; n < span; n++) leng[n] += 1;` (compression.c lines
261-262). -/
def lengList (cb : List Nat) : List Nat :=
  let r := btrace (traceRows cb) (2 * (cb.length - 1)) (List.replicate cb.length 0)
  r.1.mapIdx (fun n v => v + (if n < r.2 then 1 else 0))

/-- Fueled core of `stripZeros`; the fuel only bounds the halvings, and 16
units suffice for any `uint16` value. -/
def stripZerosGo : Nat → Nat → Nat → Nat × Nat
  | 0, lbits, llen => (lbits, llen)
  | f + 1, lbits, llen =>
      if lbits % 2 = 0 ∧ lbits ≠ 0 then stripZerosGo f (lbits / 2) (llen - 1)
      else (lbits, llen)

/-- The `while ((lbits & 0x1) == 0) { lbits >>= 1; llen -= 1; }` loop of the
canonical-code assignment (compression.c lines 291-294).  The C loop does
not terminate when `lbits = 0`; the embedding stops there (that situation is
reachable only for histograms on which the construction is already broken,
and no theorem below relies on this branch). -/
def stripZeros (lbits llen : Nat) : Nat × Nat := stripZerosGo 16 lbits llen

/-- Fueled core of `fillOnes`: each step appends a 1-bit, and the fuel is
exactly the number `target - llen` of steps the C loop makes. -/
def fillOnesGo : Nat → Nat → Nat → Nat × Nat
  | 0, lbits, llen => (lbits, llen)
  | f + 1, lbits, llen => fillOnesGo f ((2 * lbits + 1) % U16) (llen + 1)

/-- The `while (llen < leng[n]) { lbits = (lbits << 1) | 0x1; llen += 1; }`
loop (lines 296-299); `lbits` is `uint16`. -/
def fillOnes (lbits llen target : Nat) : Nat × Nat :=
  fillOnesGo (target - llen) lbits llen

/-- The canonical assignment loop for positions `1..ncode` given the running
state `(lbits, llen)` (compression.c lines 290-301).  `lbits -= 1` is
`uint16` arithmetic, hence `+ (U16 - 1) % U16` to model the wrap at 0. -/
def canonGo : Nat × Nat → List Nat → List Nat
  | _, [] => []
  | st, l :: ls =>
      let s := stripZeros st.1 st.2
      let d := (s.1 + (U16 - 1)) % U16
      let e := fillOnes d s.2 l
      e.1 :: canonGo (e.1, e.2) ls

/-- `bits[n]` over sorted positions: `bits[0] = (1 << leng[0]) - 1`, the rest
by `canonGo`. -/
def canonBits : List Nat → List Nat
  | [] => []
  | l0 :: ls =>
      let b0 := (2 ^ l0 - 1) % U16
      b0 :: canonGo (b0, l0) ls

/-- Scatter a per-position table into a per-byte table:
`for (i..) lens[code[i]] = leng[i];` over a zeroed array
(compression.c lines 314-322). -/
def scatter (codes : List Nat) (vals : List Nat) : Nat → Nat :=
  (codes.zip vals).foldl (fun f p => Function.update f p.1 p.2) (fun _ => 0)

/-- The decoder-table fill (compression.c lines 330-341): `look[base+j] = i`
for `base = bitv[i] << (16-lens[i])` (wrapping as `uint16`) and
`j < 2^(16-lens[i])`, for `i = 0..255` in order (later `i` overwrites).
An entry never written is `none` (the C array is uninitialised there). -/
def lookupFun (lens bitv : Nat → Nat) : Nat → Option Nat := fun v =>
  (List.range 256).foldl
    (fun acc i =>
      if 0 < lens i ∧ (bitv i * 2 ^ (16 - lens i)) % U16 ≤ v ∧
          v < (bitv i * 2 ^ (16 - lens i)) % U16 + 2 ^ (16 - lens i)
      then some i else acc)
    none

/-- The compressor object (fields of `_VGPcompressor` used once coded). -/
structure VGPcompressor where
  isbig : Nat
  codebits : Nat → Nat
  codelens : Nat → Nat
  lookup : Nat → Option Nat
  esc_code : Int

/-- `vcCreateCodec` (compression.c lines 153-342) for a compressor whose
histogram is `hist` on a machine with endian flag `isbig`; `part` is the
`partial` argument. -/
def vcCreateCodec (isbig : Nat) (hist : Nat → Nat) (part : Bool) :
    VGPcompressor :=
  let ce := codesAndEsc hist part
  let codes := sortedCodes hist part
  let cb := codes.map (fun c => hist c % U64)
  let leng := lengList cb
  let bits := canonBits leng
  let lens := scatter codes leng
  let bitv := scatter codes bits
  { isbig := isbig
    codebits := bitv
    codelens := lens
    lookup := lookupFun lens bitv
    esc_code := if part then ce.2 else -1 }

/-! ## DNA fast path -/

/-- The 128-entry `Number` table (compression.c lines 553-570): nonzero only
at `C/G/T` upper- and lower-case; `A`/`a` and everything else map to 0. -/
def Number (c : Nat) : Nat :=
  if c = 67 ∨ c = 99 then 1
  else if c = 71 ∨ c = 103 then 2
  else if c = 84 ∨ c = 116 then 3
  else 0

/-- The byte-packing loop of `Compress_DNA` (lines 584-598): four bases per
byte, MSB-first, with the 1-3 base tail in the high bits of a final byte. -/
def dnaPack : List Nat → List Nat
  | a :: b :: c :: d :: rest =>
      (64 * Number a + 16 * Number b + 4 * Number c + Number d) :: dnaPack rest
  | [a, b, c] => [64 * Number a + 16 * Number b + 4 * Number c]
  | [a, b] => [64 * Number a + 16 * Number b]
  | [a] => [64 * Number a]
  | [] => []

/-- `Compress_DNA` (compression.c lines 574-601): returns `(j << 1, t)`,
i.e. twice the number of *bytes* written, together with the packed bytes. -/
def Compress_DNA (s : List Nat) : Nat × List Nat :=
  let t := dnaPack s
  (2 * t.length, t)

/-- `Base` (line 703). -/
def Base (n : Nat) : Nat :=
  if n % 4 = 0 then 97 else if n % 4 = 1 then 99 else if n % 4 = 2 then 103
  else 116

/-- `Uncompress_DNA` (compression.c lines 705-744): emit `len` lowercase
bases from the 2-bit packed buffer. -/
def Uncompress_DNA (s : List Nat) (len : Nat) : List Nat :=
  (List.range len).map (fun i => Base ((s.getD (i / 4) 0) / 2 ^ (6 - 2 * (i % 4))))

/-! ## Bit-packed encoder -/

/-- The 8 bytes of the `uint64` `w` in the memory order of a host with
endian flag `isbig`. -/
def wordBytes (isbig : Nat) (w : Nat) : List Nat :=
  if isbig ≠ 0 then (List.range 8).map (fun k => w / 2 ^ (56 - 8 * k) % 256)
  else (List.range 8).map (fun k => w / 2 ^ (8 * k) % 256)

/-- Read a `uint64` from 8 bytes laid out in the memory order of a host with
endian flag `isbig` (a `*(uint64 *)p` load). -/
def readWord (isbig : Nat) (bs : List Nat) : Nat :=
  if isbig ≠ 0 then (List.range 8).foldl (fun a k => a + bs.getD k 0 * 2 ^ (56 - 8 * k)) 0
  else (List.range 8).foldl (fun a k => a + bs.getD k 0 * 2 ^ (8 * k)) 0

/-- Encoder bit-register state: the current `uint64` register `ocode`, its
free bit count `rem`, and the bytes of all full words stored so far. -/
structure EncSt where
  ocode : Nat
  rem : Nat
  out : List Nat

/-- The `OCODE(L,C)` macro (compression.c lines 628-644): push the `L` low
bits of `C` below the used bits of `ocode`, flushing a full word to the
output when the register fills.  In C `rem` transiently goes `≤ 0`; here the
three cases are split on how `L` compares with the old `rem`. -/
def OCODE (isbig : Nat) (L C : Nat) (st : EncSt) : EncSt :=
  if st.rem ≤ L then
    let oc := (st.ocode ||| (C >>> (L - st.rem))) % U64
    if st.rem < L then
      { ocode := (C <<< (64 - (L - st.rem))) % U64
        rem := 64 - (L - st.rem)
        out := st.out ++ wordBytes isbig oc }
    else
      { ocode := 0, rem := 64, out := st.out ++ wordBytes isbig oc }
  else
    { st with ocode := (st.ocode ||| (C <<< (st.rem - L))) % U64
              rem := st.rem - L }

/-- Model of the C read `clens[esc]` / `cbits[esc]`: for `esc_code = -1`
(no escape) the C reads out of bounds; the embedding returns 0 there, and
every theorem touching this path carries a hypothesis ruling it out. -/
def lensAtEsc (c : VGPcompressor) : Nat :=
  if 0 ≤ c.esc_code ∧ c.esc_code < 256 then c.codelens c.esc_code.toNat else 0

/-- See `lensAtEsc`. -/
def bitsAtEsc (c : VGPcompressor) : Nat :=
  if 0 ≤ c.esc_code ∧ c.esc_code < 256 then c.codebits c.esc_code.toNat else 0

/-- Result of the `k` loop of `vcEncode`: whether the `break` was taken,
the final `tbits`, and the register state. -/
structure EncLoopRes where
  broke : Bool
  tbits : Nat
  st : EncSt

/-- The symbol loop of `vcEncode` (compression.c lines 653-673). -/
def encodeLoop (c : VGPcompressor) (ibits : Nat) :
    List Nat → Nat → EncSt → EncLoopRes
  | [], tbits, st => ⟨false, tbits, st⟩
  | b :: xs, tbits, st =>
      let x := b % 256
      let n := c.codelens x
      if n = 0 then
        let ne := lensAtEsc c
        let t := tbits + (8 + ne)
        if ibits < t then ⟨true, t, st⟩
        else encodeLoop c ibits xs t
          (OCODE c.isbig 8 x (OCODE c.isbig ne (bitsAtEsc c) st))
      else
        let t := tbits + n
        if ibits < t then ⟨true, t, st⟩
        else encodeLoop c ibits xs t (OCODE c.isbig n (c.codebits x) st)

/-- The final partial-word store (compression.c lines 681-691): the used top
bytes of `ocode`, most significant first — on a big host as `bcode[0..]`, on
a little host as `bcode[7], bcode[6], …`. -/
def padBytes (isbig : Nat) (ocode rem : Nat) : List Nat :=
  if isbig ≠ 0 then
    (List.range ((71 - rem) / 8)).map (fun k => ocode / 2 ^ (56 - 8 * k) % 256)
  else
    if rem = 64 then []
    else (List.range (8 - (7 - (63 - rem) / 8))).map
      (fun k => ocode / 2 ^ (8 * (7 - k)) % 256)

/-- Result of `vcEncode`: the returned bit count, the output buffer bytes,
and whether the overflow fallback was taken. -/
structure EncResult where
  bits : Nat
  out : List Nat
  broke : Bool

/-- The initial encoder register: the 2-bit endian tag `01` (big) or `00`
(little) in the top bits, 62 bits free (compression.c lines 647-652). -/
def encInit (isbig : Nat) : EncSt :=
  { ocode := if isbig ≠ 0 then 2 ^ 62 else 0, rem := 62, out := [] }

/-- `vcEncode` (compression.c lines 606-699) for a coded (non-DNA)
compressor.  On overflow (`k < ilen` after the loop) the buffer is the
literal `0xFF` marker followed by the input bytes and the return value is
`ibits + 8`.  Otherwise full words were flushed in host byte order, the
partial word is appended, and on a little-endian host a stream of
`tbits ≥ 64` gets its first word shifted left by 2. -/
def vcEncode (c : VGPcompressor) (ibytes : List Nat) : EncResult :=
  let ibits := 8 * ibytes.length
  let r := encodeLoop c ibits ibytes 2 (encInit c.isbig)
  if r.broke then
    { bits := ibits + 8, out := 255 :: ibytes, broke := true }
  else
    let bytes := r.st.out ++ padBytes c.isbig r.st.ocode r.st.rem
    let bytes2 :=
      if 64 ≤ r.tbits ∧ c.isbig = 0 then
        wordBytes c.isbig ((readWord c.isbig (bytes.take 8) <<< 2) % U64) ++ bytes.drop 8
      else bytes
    { bits := r.tbits, out := bytes2, broke := false }

/-! ## Bit-stream decoder -/

/-- Decoder state: shift register `icode`, refill register `ncode` with
`nem` valid bits, remaining `ilen` (the C `int`, may go negative), `rem`
valid bits in `icode`, the word-pointer `pos` (a byte offset), and the
input buffer as left by the preprocessing. -/
structure DecSt where
  icode : Nat
  ncode : Nat
  ilen : Int
  rem : Int
  nem : Int
  pos : Nat
  buf : List Nat

/-- Load up to `bits` bits (MSB-first, whole bytes) from `bs` into the top
of a `uint64`: the `for (k = 0; k < nem; k += 8) ncode |= q[k/8] << (56-k)`
pattern of `vcDecode`. -/
def bytesMSB (bs : List Nat) (bits : Nat) : Nat :=
  (List.range ((bits + 7) / 8)).foldl (fun a j => (a ||| (bs.getD j 0 <<< (56 - 8 * j))) % U64) 0

/-- The refill `while (rem < 16)` loop of the `GET` macro (compression.c
lines 791-820), fueled; 8 units of fuel are far more than any execution
uses (each pass either exits or first loads a fresh word). -/
def getRefill (isbig : Nat) : Nat → DecSt → DecSt
  | 0, st => st
  | fuel + 1, st =>
      if st.rem < 16 then
        let z : Int := 64 - st.rem
        let st := { st with icode := (st.icode ||| (st.ncode >>> st.rem.toNat)) % U64 }
        if st.nem > z then
          { st with nem := st.nem - z, ncode := (st.ncode <<< z.toNat) % U64, rem := 64 }
        else
          let rem2 : Int := st.rem + st.nem
          if rem2 ≥ st.ilen then { st with rem := rem2, nem := st.nem }
          else if st.ilen - rem2 < 64 then
            getRefill isbig fuel
              { st with rem := rem2, nem := st.ilen - rem2,
                        ncode := bytesMSB (st.buf.drop st.pos) (st.ilen - rem2).toNat }
          else
            getRefill isbig fuel
              { st with rem := rem2, nem := 64,
                        ncode := readWord isbig ((st.buf.drop st.pos).take 8),
                        pos := st.pos + 8 }
      else st

/-- The `GET(n)` macro (lines 791-820): consume `n` bits then refill. -/
def GET (isbig : Nat) (n : Nat) (st : DecSt) : DecSt :=
  getRefill isbig 8
    { st with ilen := st.ilen - n, icode := (st.icode <<< n) % U64, rem := st.rem - n }

/-- The escape symbol as the decoder's `char esc = v->esc_code` sees it in
the 8-bit comparison `c == esc` (so `-1` becomes `255`). -/
def escByte (c : VGPcompressor) : Nat := (c.esc_code % 256).toNat

/-- One iteration of the decode loop (compression.c lines 838-847): look up
the next symbol from the top 16 bits, consume its length, and if the symbol
compares equal to the escape at `char` width, consume 8 further bits and
emit them as a literal byte. -/
def decodeStep (c : VGPcompressor) (st : DecSt) : Nat × DecSt :=
  let sym := (c.lookup (st.icode >>> 48)).getD 0
  let n := c.codelens sym
  let st1 := GET c.isbig n st
  if sym = escByte c then
    let lit := (st1.icode >>> 56) % 256
    (lit, GET c.isbig 8 st1)
  else (sym, st1)

/-- The fueled `while (ilen > 0)` loop of `vcDecode`. -/
def decodeLoop (c : VGPcompressor) : Nat → DecSt → List Nat → List Nat
  | 0, _, out => out
  | fuel + 1, st, out =>
      if st.ilen > 0 then
        let r := decodeStep c st
        decodeLoop c fuel r.2 (out ++ [r.1])
      else out

/-- Reverse each of the first `cnt` 8-byte blocks of `buf` — the
`FLIP64` loop of `vcDecode` (lines 779-785). -/
def flipWords : List Nat → Nat → List Nat
  | buf, 0 => buf
  | buf, cnt + 1 => (buf.take 8).reverse ++ flipWords (buf.drop 8) cnt

/-- `vcDecode` (compression.c lines 749-850) for a coded (non-DNA)
compressor: the `0xFF` literal path, then the endian-tag detection
`inbig = *ibytes & 0x40`, the little-endian `*p >>= 2` fix-up, the
conditional word flipping when `inbig != v->isbig`, and the main loop. -/
def vcDecode (c : VGPcompressor) (ilen : Nat) (ibytes : List Nat) : List Nat :=
  if ibytes.headD 0 = 255 then (ibytes.drop 1).take (ilen / 8 - 1)
  else
    let inbig := ibytes.headD 0 &&& 64
    let b1 :=
      if inbig = 0 ∧ 64 ≤ ilen then
        wordBytes c.isbig ((readWord c.isbig (ibytes.take 8)) >>> 2) ++ ibytes.drop 8
      else ibytes
    let b2 := if inbig ≠ c.isbig then flipWords b1 (ilen / 64) else b1
    let first := if ilen < 64 then (bytesMSB b2 ilen, 0) else (readWord c.isbig (b2.take 8), 8)
    let st0 : DecSt :=
      { icode := (first.1 <<< 2) % U64
        ncode := 0
        ilen := (ilen : Int) - 2
        rem := min 62 ((ilen : Int) - 2)
        nem := 0
        pos := first.2
        buf := b2 }
    decodeLoop c (ilen + 1) st0 []

/-! ## Serialisation -/

/-- Memory bytes of a `uint16` on a host with endian flag `isbig`. -/
def bytes16 (isbig : Nat) (w : Nat) : List Nat :=
  if isbig ≠ 0 then [w / 256 % 256, w % 256] else [w % 256, w / 256 % 256]

/-- `memcpy` of two bytes into a `uint16` on a host with flag `isbig`. -/
def read16 (isbig : Nat) (b : List Nat) : Nat :=
  if isbig ≠ 0 then 256 * b.getD 0 0 + b.getD 1 0
  else b.getD 0 0 + 256 * b.getD 1 0

/-- Memory bytes of a `uint32` on a host with endian flag `isbig`. -/
def bytes32 (isbig : Nat) (w : Nat) : List Nat :=
  if isbig ≠ 0 then
    [w / 2 ^ 24 % 256, w / 2 ^ 16 % 256, w / 2 ^ 8 % 256, w % 256]
  else [w % 256, w / 2 ^ 8 % 256, w / 2 ^ 16 % 256, w / 2 ^ 24 % 256]

/-- `memcpy` of four bytes into a 32-bit value on a host with flag `isbig`. -/
def read32 (isbig : Nat) (b : List Nat) : Nat :=
  if isbig ≠ 0 then
    2 ^ 24 * b.getD 0 0 + 2 ^ 16 * b.getD 1 0 + 2 ^ 8 * b.getD 2 0 + b.getD 3 0
  else b.getD 0 0 + 2 ^ 8 * b.getD 1 0 + 2 ^ 16 * b.getD 2 0 + 2 ^ 24 * b.getD 3 0

/-- The per-byte records of the serialised blob (compression.c lines
461-467): for each index in `is`, one byte `lens[i]` followed by the two
bytes of `bits[i]` iff `lens[i] > 0`, with 16-bit fields in byte order
`o`. -/
def serEntries (o : Nat) (lens bitv : Nat → Nat) (is : List Nat) : List Nat :=
  is.foldr (fun i acc => lens i :: (if 0 < lens i then bytes16 o (bitv i) else []) ++ acc) []

/-- `vcSerialize` (compression.c lines 436-469): endian byte, the 4 bytes of
`esc_code`, then the 256 length/bits records, everything in host byte
order. -/
def vcSerialize (c : VGPcompressor) : List Nat :=
  c.isbig :: bytes32 c.isbig ((c.esc_code % (2 ^ 32 : Int)).toNat) ++
    serEntries c.isbig c.codelens c.codebits (List.range 256)

/-- The entry-reading loop of `vcDeserialize` (lines 505-532): read `n`
records sequentially; under an endian `mismatch` each 16-bit field is
`FLIP16`ed (byte-reversed) before the host-order `memcpy`.  Returns the
`(length, bits)` pairs and the remaining bytes. -/
def parseEntries (hostbig : Nat) (mismatch : Bool) :
    Nat → List Nat → List (Nat × Nat) × List Nat
  | 0, bs => ([], bs)
  | n + 1, bs =>
      let len := bs.headD 0
      let bs1 := bs.tail
      if 0 < len then
        let w := read16 hostbig (if mismatch then (bs1.take 2).reverse else bs1.take 2)
        let r := parseEntries hostbig mismatch n (bs1.drop 2)
        ((len, w) :: r.1, r.2)
      else
        let r := parseEntries hostbig mismatch n bs1
        ((len, 0) :: r.1, r.2)

/-- `vcDeserialize` (compression.c lines 477-544) on a host with endian flag
`hostbig`: read the stored endian byte, read `esc_code` and the 256 records
(`FLIP`ing multi-byte fields when the stored endian differs from the
host's), and rebuild the `lookup` table from the tables read. -/
def vcDeserialize (hostbig : Nat) (blob : List Nat) : VGPcompressor :=
  let flag := blob.headD 0
  let rest := blob.tail
  let mismatch := hostbig ≠ flag
  let escRaw := read32 hostbig (if mismatch then (rest.take 4).reverse else rest.take 4)
  let entries := (parseEntries hostbig mismatch 256 (rest.drop 4)).1
  let lens := fun i => if i < 256 then (entries.getD i (0, 0)).1 else 0
  let bitv := fun i => if i < 256 then (entries.getD i (0, 0)).2 else 0
  { isbig := hostbig
    codebits := bitv
    codelens := lens
    lookup := lookupFun lens bitv
    esc_code := toInt32 escRaw }

/-- The per-byte records of `vcSerialize` with every 2-byte `bits` field
byte-swapped (the record transformation of the cross-endian scenario). -/
def serEntriesSwapped (o : Nat) (lens bitv : Nat → Nat) (is : List Nat) : List Nat :=
  is.foldr (fun i acc => lens i ::
    (if 0 < lens i then (bytes16 o (bitv i)).reverse else []) ++ acc) []

/-- The cross-endian transformation described by the spec's test scenario:
flip the stored endian flag byte and byte-swap the 4-byte escape field and
every 2-byte `bits` entry of `vcSerialize c`. -/
def flippedBlob (c : VGPcompressor) : List Nat :=
  (1 - c.isbig) :: (bytes32 c.isbig ((c.esc_code % (2 ^ 32 : Int)).toNat)).reverse ++
    serEntriesSwapped c.isbig c.codelens c.codebits (List.range 256)

/-! ## Specification-side artefacts used in the proofs -/

/-- The `(j, span)` bookkeeping of the back-trace, extracted from the rows:
at each level, `j` is the number of base picks among the first `span`
matrix bits and the next span is `2*(span - j)`. -/
def traceSpans : List (List Bool) → Nat → List Nat × Nat
  | [], span => ([], span)
  | r :: rs, span =>
      let j := (r.take span).count true
      let p := traceSpans rs (2 * (span - j))
      (j :: p.1, p.2)

/-- `Σ_t js[t] · 2^(|js|-t) + s`: the weighted count of selected coins. -/
def wsum : List Nat → Nat → Nat
  | [], s => s
  | j :: js, s => j * 2 ^ (js.length + 1) + wsum js s

/-- The contribution of sorted position `n` to `wsum`: the levels that
selected coin `n`, each weighted by its power of two. -/
def aval : List Nat → Nat → Nat → Nat
  | [], s, n => if n < s then 1 else 0
  | j :: js, s, n => (if n < j then 2 ^ (js.length + 1) else 0) + aval js s n

/-- The number of levels that selected coin `n` — this is `leng[n]`. -/
def cntf (js : List Nat) (s n : Nat) : Nat :=
  (js.filter (fun j => n < j)).length + (if n < s then 1 else 0)

/-- `Σ_x 2^(16-x)` over a list of code lengths: the amount of 16-bit
lookup space the codewords of these lengths occupy. -/
def sumPow (xs : List Nat) : Nat := (xs.map (fun x => 2 ^ (16 - x))).sum

/-- The number of bits `vcEncode` spends on one input byte: its code
length, or the escape length plus 8 for a byte with no code. -/
def symCost (c : VGPcompressor) (b : Nat) : Nat :=
  if c.codelens (b % 256) = 0 then 8 + lensAtEsc c else c.codelens (b % 256)

/-- `2 + Σ symCost`: the total bit count of the compressed form of `xs`
(the 2-bit endian tag plus all emitted code widths). -/
def totalBits (c : VGPcompressor) (xs : List Nat) : Nat :=
  2 + (xs.map (symCost c)).sum

/-- The Kraft functional of a per-byte length table, as a rational:
`Σ 2^(-length[i])` over the bytes with `length[i] > 0`. -/
def kraftSum (lens : Nat → Nat) : ℚ :=
  ∑ i ∈ Finset.range 256, if 0 < lens i then ((2 : ℚ) ^ lens i)⁻¹ else 0

/-- The same functional scaled by `2^HUFF_CUTOFF` and kept in `ℕ`. -/
def kraftNat (lens : Nat → Nat) : Nat :=
  ∑ i ∈ Finset.range 256, if 0 < lens i then 2 ^ (12 - lens i) else 0

/-- The prefix-code property of a per-byte table under MSB-first reading:
no codeword is an initial segment of another symbol's codeword. -/
def PrefixFree (lens bitv : Nat → Nat) : Prop :=
  ∀ b b', b ≠ b' → 0 < lens b → 0 < lens b' → lens b ≤ lens b' →
    bitv b' / 2 ^ (lens b' - lens b) ≠ bitv b

/-- The deficit `2N - |coinRow cb k|`, described by its own recurrence. -/
def defic (N : Nat) : Nat → Nat
  | 0 => N
  | k + 1 => (defic N k + 1) / 2

/-- `traceRows` rebuilt by downward recursion on the top level index:
`rowsFrom cb k = [matrix (coinRow cb k), …, matrix (coinRow cb 1)]`. -/
def rowsFrom (cb : List Nat) : Nat → List (List Bool)
  | 0 => []
  | k + 1 => ((coinRow cb (k + 1)).map Prod.fst) :: rowsFrom cb k

/-! ## Concrete instances used by the claims -/

/-- A histogram giving codes to exactly the bytes `0` and `255`. -/
def histC1 : Nat → Nat := fun b => if b = 0 ∨ b = 255 then 1 else 0

/-- A small serialisable length table: two one-bit codes. -/
def lensW : Nat → Nat := fun i => if i = 0 ∨ i = 1 then 1 else 0

/-- The matching bits table for `lensW`. -/
def bitsW : Nat → Nat := fun i => if i = 0 then 1 else 0

/-- The codec built from `histC1` with `partial = 0` on a little-endian
machine. -/
def codecC1 : VGPcompressor := vcCreateCodec 0 histC1 false

/-- The geometric histogram of the `TEST` harness in compression.c
(lines 909-928): bytes `a..l` with counts `1,1,2,4,…,1024`. -/
def histGeo : Nat → Nat := fun b =>
  if b = 97 then 1 else if b = 98 then 1 else if b = 99 then 2
  else if b = 100 then 4 else if b = 101 then 8 else if b = 102 then 16
  else if b = 103 then 32 else if b = 104 then 64 else if b = 105 then 128
  else if b = 106 then 256 else if b = 107 then 512 else if b = 108 then 1024
  else 0

/-- The codec of the `TEST` harness: `vcCreateCodec(scheme,1)` on a
little-endian machine (escape symbol is byte 0, lengths `a:12 … l:1`). -/
def codecGeo : VGPcompressor := vcCreateCodec 0 histGeo true

/-- A histogram whose two counts differ by more than an `int` can hold. -/
def histC7 : Nat → Nat := fun b =>
  if b = 0 then 2 ^ 31 + 1 else if b = 1 then 1 else 0

/-- A histogram on which the coin-collector's `uint64` sums wrap. -/
def histC3 : Nat → Nat := fun b =>
  if b = 0 then 1 else if b = 1 then 2 ^ 64 - 1 else 0

/-- The codec built from `histC3` with `partial = 0`. -/
def codecC3 : VGPcompressor := vcCreateCodec 0 histC3 false

/-- The input `"ACGTACGTAC"` as bytes. -/
def dnaInput : List Nat := [65, 67, 71, 84, 65, 67, 71, 84, 65, 67]

/-- A histogram whose only used byte is 0. -/
def histEsc : Nat → Nat := fun b => if b = 0 then 1 else 0

/-- The codec from `histEsc` with `partial = 1`: byte 0 and the escape
byte 1 each get a 1-bit code. -/
def codecEsc : VGPcompressor := vcCreateCodec 0 histEsc true

/-- A decoder state whose next 16 bits select symbol 255 of `codecC1`. -/
def stW : DecSt :=
  { icode := 0x4000 * 2 ^ 48, ncode := 0, ilen := 2, rem := 2, nem := 0
    pos := 0, buf := [] }

/-- The ordering the spec claims for the symbol sort: strictly increasing
count, with ties broken by increasing byte value. -/
def sortKey (hist : Nat → Nat) (a b : Nat) : Prop :=
  hist a < hist b ∨ (hist a = hist b ∧ a < b)

/-! ## C1 -/

/-- C1.  The round-trip claim fails on the code: for the codec built from
the histogram `{0 ↦ 1, 255 ↦ 1}` with `partial = false` on a little-endian
host, every byte of the input `[255, 0]` has a code of positive length, the
encoder emits the compressed (non-fallback) stream, yet decoding the encoded
stream returns `[128]`, not the input: `vcDecode` compares the decoded
symbol with the escape code at `char` width, so symbol `255` collides with
the stored `esc_code = -1` and is replaced by 8 further stream bits. -/
theorem C1_roundtrip_fails :
    vcDecode codecC1 (vcEncode codecC1 [255, 0]).bits
        (vcEncode codecC1 [255, 0]).out = [128] ∧
      (vcEncode codecC1 [255, 0]).broke = false ∧
      codecC1.esc_code = -1 ∧
      codecC1.codelens 255 = 1 ∧ codecC1.codelens 0 = 1 ∧
      [128] ≠ [255, 0] := by decide

/-! ## C6 -/

/-- C6.  `Compress_DNA` on the 10-base input `"ACGTACGTAC"` returns `6`
bits, not the claimed `2·n = 20`: the code returns `j << 1`, twice the
number of packed *bytes*.  Feeding that bit count to the decode path
(`Uncompress_DNA(ibytes, ilen >> 1, …)`) therefore recovers only 3 bases. -/
theorem C6_dna_bits_bug :
    (Compress_DNA dnaInput).1 = 6 ∧
      (Compress_DNA dnaInput).1 ≠ 2 * dnaInput.length ∧
      (Compress_DNA dnaInput).2 = [27, 27, 16] ∧
      Uncompress_DNA (Compress_DNA dnaInput).2 ((Compress_DNA dnaInput).1 / 2) =
        [97, 99, 103] := by decide

/-! ## C5 counterexample -/

/-- C5 counterexample.  With the `TEST` codec, the 2-byte input `"ak"`
compresses to exactly `8·n = 16` bits (`2 + 12 + 2`), and `vcEncode` emits
it as a compressed stream (first byte `0x3F`, not the `0xFF` marker): the
code compares `tbits > ibits`, so an exact tie is *not* sent through the
overflow fallback, contradicting the claim's "equal or exceed". -/
theorem C5_tie_is_compressed :
    (vcEncode codecGeo [97, 107]).bits = 8 * 2 ∧
      (vcEncode codecGeo [97, 107]).broke = false ∧
      (vcEncode codecGeo [97, 107]).out = [63, 250] := by decide

/-! ## C7 counterexample -/

/-- C7 counterexample.  On the histogram `{0 ↦ 2^31 + 1, 1 ↦ 1}` the
comparator `HSORT` truncates the `uint64` difference `2^31` to the `int`
`-2^31`, so byte 0 sorts *before* byte 1 even though its count is larger:
the participating symbols are not sorted by ascending count. -/
theorem C7_sort_counterexample :
    sortedCodes histC7 false = [0, 1] ∧ histC7 1 < histC7 0 := by decide

/-! ## C3 counterexample -/

/-- C3 counterexample.  On the histogram `{0 ↦ 1, 1 ↦ 2^64 - 1}` the
`uint64` package sums wrap, the comparator mis-sorts, and `vcCreateCodec`
assigns byte 0 the code `bits = 2` of length 1 — an impossible codeword
(`2 ≥ 2^1`).  The decode table maps `v = 0` to byte 0, yet the top
`length[0]` bits of `v` (namely `0`) differ from `bits[0]`: the stated
lookup characterisation fails, as `bits[0]` left-justified in 16 bits
cannot equal the top bit of any 16-bit value. -/
theorem C3_lookup_counterexample :
    codecC3.lookup 0 = some 0 ∧
      codecC3.codelens 0 = 1 ∧ codecC3.codebits 0 = 2 ∧
      (0 : Nat) / 2 ^ (16 - codecC3.codelens 0) ≠ codecC3.codebits 0 ∧
      2 ^ codecC3.codelens 0 ≤ codecC3.codebits 0 := by decide

/-! ## Code collection and sorting: basic facts -/

theorem collectCodes_sublist (hist : Nat → Nat) :
    ∀ (l : List Nat) (e : Int), List.Sublist (collectCodes hist l e).1 l := by
  intro l
  induction l with
  | nil => intro e; simp [collectCodes]
  | cons i is ih =>
      intro e
      simp only [collectCodes]
      split
      · exact (ih e).cons₂ i
      · split
        · exact (ih (i : Int)).cons₂ i
        · exact (ih e).cons i

theorem codes_pairwise_lt (hist : Nat → Nat) (part : Bool) :
    (codesAndEsc hist part).1.Pairwise (· < ·) :=
  (List.pairwise_lt_range 256).sublist (collectCodes_sublist hist _ _)

theorem codes_lt (hist : Nat → Nat) (part : Bool) :
    ∀ b ∈ (codesAndEsc hist part).1, b < 256 := fun b hb =>
  List.mem_range.1 ((collectCodes_sublist hist _ _).subset hb)

theorem codes_nodup (hist : Nat → Nat) (part : Bool) :
    (codesAndEsc hist part).1.Nodup :=
  (codes_pairwise_lt hist part).imp Nat.ne_of_lt

theorem sortedCodes_perm (hist : Nat → Nat) (part : Bool) :
    List.Perm (sortedCodes hist part) (codesAndEsc hist part).1 :=
  List.perm_insertionSort _ _

theorem sortedCodes_nodup (hist : Nat → Nat) (part : Bool) :
    (sortedCodes hist part).Nodup :=
  (sortedCodes_perm hist part).nodup_iff.2 (codes_nodup hist part)

theorem sortedCodes_lt (hist : Nat → Nat) (part : Bool) :
    ∀ b ∈ sortedCodes hist part, b < 256 := fun b hb =>
  codes_lt hist part b ((sortedCodes_perm hist part).subset hb)

theorem collectCodes_nonneg (hist : Nat → Nat) :
    ∀ (l : List Nat) (e : Int), 0 ≤ e →
      collectCodes hist l e = (l.filter (fun i => decide (0 < hist i)), e) := by
  intro l
  induction l with
  | nil => intro e _; simp [collectCodes]
  | cons i is ih =>
      intro e he
      simp only [collectCodes, List.filter_cons]
      by_cases h : 0 < hist i
      · simp [h, ih e he]
      · have : ¬ e < 0 := by omega
        simp [h, this, ih e he]

theorem filter_range_single (p : Nat → Bool) (b : Nat) (hp : ∀ i, p i = true ↔ i = b) :
    ∀ n, (List.range n).filter p = if b < n then [b] else [] := by
  intro n
  induction n with
  | zero => simp
  | succ n ih =>
      rw [List.range_succ, List.filter_append, ih]
      by_cases hbn : b < n
      · have : ¬ (p n = true) := by rw [hp]; omega
        simp only [List.filter_cons, List.filter_nil]
        rw [if_neg this, if_pos (by omega : b < n + 1), if_pos hbn]
        simp
      · by_cases hbe : b = n
        · subst hbe
          have : p b = true := (hp b).2 rfl
          simp [hbn, this]
        · have : ¬ (p n = true) := by rw [hp]; omega
          simp only [List.filter_cons, List.filter_nil]
          rw [if_neg this, if_neg hbn, if_neg (by omega : ¬ b < n + 1)]
          simp

/-! ## The back-trace at span 0 (single-symbol histograms) -/

theorem btLevel_zero (row : List Bool) (leng : List Nat) :
    btLevel row 0 leng = (0, leng) := by
  simp [btLevel]

theorem btrace_zero : ∀ (rows : List (List Bool)) (leng : List Nat),
    btrace rows 0 leng = (leng, 0) := by
  intro rows
  induction rows with
  | nil => intro leng; rfl
  | cons r rs ih => intro leng; simp [btrace, btLevel_zero, ih]

/-! ## C9 -/

/-- C9.  If `partial` is false and the histogram's non-zero counts all sit
on the single byte `b`, `vcCreateCodec` assigns every byte code length 0:
with one participating symbol the back-trace span `2·(N−1)` is 0, so no
length increments happen. -/
theorem C9_single_symbol_all_zero (ib b cnt : Nat) (hb : b < 256) (hc : 0 < cnt) :
    ∀ i, (vcCreateCodec ib (fun x => if x = b then cnt else 0) false).codelens i = 0 := by
  intro i
  set hist : Nat → Nat := fun x => if x = b then cnt else 0 with hhist
  have hcodes : (codesAndEsc hist false).1 = [b] := by
    rw [codesAndEsc]
    rw [collectCodes_nonneg hist _ _ (by norm_num)]
    have hp : ∀ j, (decide (0 < hist j)) = true ↔ j = b := by
      intro j
      simp only [hhist, decide_eq_true_eq]
      by_cases h : j = b <;> simp [h, hc]
    rw [filter_range_single _ b hp 256, if_pos hb]
  have hsorted : sortedCodes hist false = [b] := by
    rw [sortedCodes, hcodes]
    simp [List.insertionSort, List.orderedInsert]
  have hleng : ∀ w : Nat, lengList [w] = [0] := by
    intro w
    have h0 : (2 * ((1 : Nat) - 1)) = 0 := rfl
    simp only [lengList, List.length_singleton, h0, btrace_zero,
      List.replicate_one]
    simp
  show scatter (sortedCodes hist false)
      (lengList ((sortedCodes hist false).map (fun c => hist c % U64))) i = 0
  rw [hsorted]
  simp only [List.map_cons, List.map_nil, hleng]
  simp only [scatter, List.zip_cons_cons, List.zip_nil_right, List.foldl_cons,
    List.foldl_nil]
  rw [Function.update_apply]
  split <;> rfl

/-- Witness for C9 at byte 5 with count 3. -/
theorem C9_single_symbol_all_zero_witness :
    (5 : Nat) < 256 ∧ (0 : Nat) < 3 ∧
      ∀ i, (vcCreateCodec 0 (fun x => if x = 5 then 3 else 0) false).codelens i = 0 :=
  ⟨by decide, by decide, C9_single_symbol_all_zero 0 5 3 (by decide) (by decide)⟩

/-! ## C4: the overflow fallback contract -/

theorem vcEncode_of_broke (c : VGPcompressor) (xs : List Nat)
    (h : (vcEncode c xs).broke = true) :
    (vcEncode c xs).out = 255 :: xs ∧ (vcEncode c xs).bits = 8 * xs.length + 8 := by
  revert h
  simp only [vcEncode]
  split
  · intro _; exact ⟨rfl, rfl⟩
  · intro h; exact absurd h (by simp)

theorem vcDecode_literal (c : VGPcompressor) (xs : List Nat) :
    vcDecode c (8 * xs.length + 8) (255 :: xs) = xs := by
  simp only [vcDecode, List.headD_cons, if_pos rfl, List.drop_succ_cons,
    List.drop_zero]
  have h8 : (8 * xs.length + 8) / 8 - 1 = xs.length := by omega
  rw [h8, List.take_length]
  simp

/-- C4.  Whenever `vcEncode` takes the overflow fallback, the output buffer
is the byte `0xFF` followed by the input verbatim, the returned bit count
is `8·(n+1)`, and `vcDecode` on that buffer with that bit count returns the
input unchanged. -/
theorem C4_fallback_roundtrip (c : VGPcompressor) (xs : List Nat)
    (h : (vcEncode c xs).broke = true) :
    (vcEncode c xs).out = 255 :: xs ∧
      (vcEncode c xs).bits = 8 * (xs.length + 1) ∧
      vcDecode c (vcEncode c xs).bits (vcEncode c xs).out = xs := by
  obtain ⟨ho, hbits⟩ := vcEncode_of_broke c xs h
  refine ⟨ho, by omega, ?_⟩
  rw [ho, hbits]
  exact vcDecode_literal c xs

/-- Witness for C4 at the escape codec and the unseen byte 2: the escape
costs `12 + 8` bits against `ibits = 8`, so the fallback fires. -/
theorem C4_fallback_roundtrip_witness :
    (vcEncode codecEsc [2]).broke = true ∧
      ((vcEncode codecEsc [2]).out = 255 :: [2] ∧
        (vcEncode codecEsc [2]).bits = 8 * (1 + 1) ∧
        vcDecode codecEsc (vcEncode codecEsc [2]).bits
          (vcEncode codecEsc [2]).out = [2]) :=
  ⟨by decide, C4_fallback_roundtrip codecEsc [2] (by decide)⟩

/-! ## C5: when exactly the fallback fires -/

theorem encodeLoop_broke_iff (c : VGPcompressor) (ibits : Nat) :
    ∀ (xs : List Nat) (tbits : Nat) (st : EncSt), tbits ≤ ibits →
      ((encodeLoop c ibits xs tbits st).broke = true ↔
        ibits < tbits + (xs.map (symCost c)).sum) := by
  intro xs
  induction xs with
  | nil =>
      intro tbits st h
      simp only [encodeLoop, List.map_nil, List.sum_nil]
      constructor
      · intro hh; exact absurd hh (by simp)
      · intro hh; omega
  | cons b tl ih =>
      intro tbits st h
      rw [List.map_cons, List.sum_cons]
      by_cases hz : c.codelens (b % 256) = 0
      · have hcost : symCost c b = 8 + lensAtEsc c := by rw [symCost, if_pos hz]
        rw [hcost]
        simp only [encodeLoop, hz, reduceIte]
        by_cases hbr : ibits < tbits + (8 + lensAtEsc c)
        · rw [if_pos hbr]
          exact ⟨fun _ => by omega, fun _ => rfl⟩
        · rw [if_neg hbr, ih _ _ (by omega)]
          omega
      · have hcost : symCost c b = c.codelens (b % 256) := by rw [symCost, if_neg hz]
        rw [hcost]
        simp only [encodeLoop, if_neg hz]
        by_cases hbr : ibits < tbits + c.codelens (b % 256)
        · rw [if_pos hbr]
          exact ⟨fun _ => by omega, fun _ => rfl⟩
        · rw [if_neg hbr, ih _ _ (by omega)]
          omega

theorem vcEncode_broke_eq (c : VGPcompressor) (xs : List Nat) :
    (vcEncode c xs).broke =
      (encodeLoop c (8 * xs.length) xs 2 (encInit c.isbig)).broke := by
  simp only [vcEncode]
  split
  · next h => simp [h]
  · next h => simp only [Bool.not_eq_true] at h; simp [h]

/-- C5 (amended).  For a non-empty input, `vcEncode` takes the literal-copy
fallback exactly when the total compressed bit count (2-bit tag plus all
code widths) *strictly exceeds* `8·n`; an input whose compressed form ties
at exactly `8·n` bits is emitted compressed. -/
theorem C5_fallback_iff_strict (c : VGPcompressor) (xs : List Nat)
    (hne : 0 < xs.length) :
    ((vcEncode c xs).broke = true ↔ 8 * xs.length < totalBits c xs) := by
  have h2 : 2 ≤ 8 * xs.length := by omega
  rw [vcEncode_broke_eq,
    encodeLoop_broke_iff c (8 * xs.length) xs 2 (encInit c.isbig) h2, totalBits]

/-- Witness for C5's amended theorem at the `TEST` codec and `"a"`. -/
theorem C5_fallback_iff_strict_witness :
    0 < ([97] : List Nat).length ∧
      ((vcEncode codecGeo [97]).broke = true ↔
        8 * ([97] : List Nat).length < totalBits codecGeo [97]) :=
  ⟨by decide, C5_fallback_iff_strict codecGeo [97] (by decide)⟩

/-! ## C10: byte 255 collides with `esc_code = -1` in the decoder -/

theorem getRefill_ilen (isbig : Nat) :
    ∀ (fuel : Nat) (st : DecSt), (getRefill isbig fuel st).ilen = st.ilen := by
  intro fuel
  induction fuel with
  | zero => intro st; rfl
  | succ f ih =>
      intro st
      simp only [getRefill]
      repeat' split
      all_goals simp [ih]

theorem GET_ilen (isbig n : Nat) (st : DecSt) :
    (GET isbig n st).ilen = st.ilen - n := by
  simp [GET, getRefill_ilen]

/-- C10.  When the codec has no escape (`esc_code = -1`) and the decode
table yields symbol 255, `vcDecode`'s loop body takes the escape branch:
the emitted byte is the next 8 stream bits (after the symbol's own code
bits), and `codelens 255 + 8` bits are consumed — symbol 255 is never
emitted directly. -/
theorem C10_esc255_step (c : VGPcompressor) (st : DecSt)
    (hesc : c.esc_code = -1)
    (hsym : (c.lookup (st.icode >>> 48)).getD 0 = 255) :
    (decodeStep c st).1 =
        ((GET c.isbig (c.codelens 255) st).icode >>> 56) % 256 ∧
      (decodeStep c st).2.ilen = st.ilen - c.codelens 255 - 8 := by
  have hescB : escByte c = 255 := by rw [escByte, hesc]; rfl
  simp only [decodeStep, hsym, hescB, reduceIte]
  exact ⟨by trivial, by rw [GET_ilen, GET_ilen]; push_cast; ring⟩

/-- Witness for C10 at `codecC1` and a state whose top 16 bits are
`0x4000` (the code of symbol 255 followed by a 1 bit). -/
theorem C10_esc255_step_witness :
    codecC1.esc_code = -1 ∧
      (codecC1.lookup (stW.icode >>> 48)).getD 0 = 255 ∧
      ((decodeStep codecC1 stW).1 =
          ((GET codecC1.isbig (codecC1.codelens 255) stW).icode >>> 56) % 256 ∧
        (decodeStep codecC1 stW).2.ilen = stW.ilen - codecC1.codelens 255 - 8) :=
  ⟨by decide, by decide, C10_esc255_step codecC1 stW (by decide) (by decide)⟩

/-! ## C7: the sort is correct when no difference overflows `int` -/

theorem hle_iff (hist : Nat → Nat) (x y : Nat)
    (hx : hist x < U64) (hy : hist y < U64)
    (h1 : hist x ≤ hist y → hist y - hist x < 2 ^ 31)
    (h2 : hist y ≤ hist x → hist x - hist y < 2 ^ 31) :
    (hle hist x y ↔ hist x ≤ hist y) := by
  have hU : U64 = 18446744073709551616 := by norm_num [U64]
  unfold hle HSORT toInt32
  rw [Nat.mod_eq_of_lt hx, Nat.mod_eq_of_lt hy]
  rw [hU] at *
  split <;> push_cast <;> omega

theorem orderedInsert_sortKey (hist : Nat → Nat)
    (Hiff : ∀ x y, x < 256 → y < 256 → (hle hist x y ↔ hist x ≤ hist y))
    (a : Nat) (ha : a < 256) :
    ∀ (l : List Nat), (∀ y ∈ l, y < 256) → (∀ y ∈ l, a < y) →
      l.Pairwise (sortKey hist) →
      (l.orderedInsert (hle hist) a).Pairwise (sortKey hist) := by
  intro l
  induction l with
  | nil => intro _ _ _; simp [List.orderedInsert, List.pairwise_singleton]
  | cons b t ih =>
      intro hmem hlt hp
      rw [List.orderedInsert]
      by_cases hab : hle hist a b
      · rw [if_pos hab]
        have hmono : ∀ y ∈ t, hist b ≤ hist y := by
          intro y hy
          rcases (List.pairwise_cons.1 hp).1 y hy with h | h
          · exact le_of_lt h
          · exact le_of_eq h.1
        have haB : hist a ≤ hist b :=
          (Hiff a b ha (hmem b (by simp))).1 hab
        refine List.pairwise_cons.2 ⟨?_, hp⟩
        intro y hy
        rcases List.mem_cons.1 hy with rfl | hyt
        · rcases lt_or_eq_of_le haB with h | h
          · exact Or.inl h
          · exact Or.inr ⟨h, hlt y (by simp)⟩
        · have : hist a ≤ hist y := le_trans haB (hmono y hyt)
          rcases lt_or_eq_of_le this with h | h
          · exact Or.inl h
          · exact Or.inr ⟨h, hlt y (List.mem_cons_of_mem b hyt)⟩
      · rw [if_neg hab]
        have hba : hist b < hist a := by
          have hi := (Hiff a b ha (hmem b (by simp))).2
          by_contra hcon
          push_neg at hcon
          exact hab (hi hcon)
        refine List.pairwise_cons.2 ⟨?_, ?_⟩
        · intro y hy
          rcases (List.mem_orderedInsert _).1 hy with rfl | hyt
          · exact Or.inl hba
          · exact (List.pairwise_cons.1 hp).1 y hyt
        · exact ih (fun y hy => hmem y (List.mem_cons_of_mem b hy))
            (fun y hy => hlt y (List.mem_cons_of_mem b hy))
            (List.pairwise_cons.1 hp).2

theorem insertionSort_sortKey (hist : Nat → Nat)
    (Hiff : ∀ x y, x < 256 → y < 256 → (hle hist x y ↔ hist x ≤ hist y)) :
    ∀ (l : List Nat), (∀ y ∈ l, y < 256) → l.Pairwise (· < ·) →
      (List.insertionSort (hle hist) l).Pairwise (sortKey hist) := by
  intro l
  induction l with
  | nil => intro _ _; simp [List.insertionSort]
  | cons a t ih =>
      intro hmem hp
      rw [List.insertionSort]
      refine orderedInsert_sortKey hist Hiff a (hmem a (by simp)) _ ?_ ?_ ?_
      · intro y hy
        exact hmem y (List.mem_cons_of_mem a ((List.mem_insertionSort _).1 hy))
      · intro y hy
        exact (List.pairwise_cons.1 hp).1 y ((List.mem_insertionSort _).1 hy)
      · exact ih (fun y hy => hmem y (List.mem_cons_of_mem a hy))
          (List.pairwise_cons.1 hp).2

/-- C7 (amended).  Provided every count fits in `uint64` and every pairwise
difference of counts fits below `2^31` (so the comparator's conversion to
`int` cannot overflow), the participating symbols are sorted by ascending
histogram count with ties broken by increasing byte value — the stable
order the claim states.  (The unrestricted claim is refuted by
`C7_sort_counterexample`.) -/
theorem C7_sorted_no_overflow (hist : Nat → Nat) (part : Bool)
    (hw : ∀ b, b < 256 → hist b < U64)
    (hd : ∀ x y, x < 256 → y < 256 → hist x ≤ hist y → hist y - hist x < 2 ^ 31) :
    (sortedCodes hist part).Pairwise (sortKey hist) := by
  have Hiff : ∀ x y, x < 256 → y < 256 → (hle hist x y ↔ hist x ≤ hist y) :=
    fun x y hx hy =>
      hle_iff hist x y (hw x hx) (hw y hy) (hd x y hx hy) (hd y x hy hx)
  exact insertionSort_sortKey hist Hiff _ (codes_lt hist part)
    (codes_pairwise_lt hist part)

/-- Witness for C7's amended theorem at the `TEST` histogram (all counts
below `2^31`, so all differences fit). -/
theorem C7_sorted_no_overflow_witness :
    (∀ b, b < 256 → histGeo b < U64) ∧
      (∀ x y, x < 256 → y < 256 → histGeo x ≤ histGeo y →
        histGeo y - histGeo x < 2 ^ 31) ∧
      (sortedCodes histGeo true).Pairwise (sortKey histGeo) := by
  have hsmall : ∀ b, b < 256 → histGeo b < 2 ^ 31 := by decide
  have hw : ∀ b, b < 256 → histGeo b < U64 := fun b hb =>
    lt_trans (hsmall b hb) (by norm_num [U64])
  have hd : ∀ x y, x < 256 → y < 256 → histGeo x ≤ histGeo y →
      histGeo y - histGeo x < 2 ^ 31 := fun x y _ hy _ =>
    lt_of_le_of_lt (Nat.sub_le _ _) (hsmall y hy)
  exact ⟨hw, hd, C7_sorted_no_overflow histGeo true hw hd⟩

/-! ## C8: serialisation round-trips, including cross-endian -/

theorem read16_bytes16 (o w : Nat) (hw : w < U16) :
    read16 o (bytes16 o w) = w := by
  have h : w < 65536 := by simpa [U16] using hw
  unfold read16 bytes16
  split <;> simp <;> omega

theorem bytes16_length (o w : Nat) : (bytes16 o w).length = 2 := by
  unfold bytes16; split <;> rfl

theorem read32_bytes32 (o w : Nat) (hw : w < 2 ^ 32) :
    read32 o (bytes32 o w) = w := by
  unfold read32 bytes32
  split <;> simp <;> omega

theorem bytes32_length (o w : Nat) : (bytes32 o w).length = 4 := by
  unfold bytes32; split <;> rfl

theorem toInt32_emod (e : Int) (h1 : -2 ^ 31 ≤ e) (h2 : e < 2 ^ 31) :
    toInt32 ((e % 2 ^ 32).toNat) = e := by
  unfold toInt32
  have h3 : (0 : Int) ≤ e % 2 ^ 32 := Int.emod_nonneg _ (by norm_num)
  have h4 : e % 2 ^ 32 < 2 ^ 32 := Int.emod_lt_of_pos _ (by norm_num)
  have h5 : (e % 2 ^ 32).toNat % 2 ^ 32 = (e % 2 ^ 32).toNat := by omega
  rw [h5]
  split <;> omega

theorem parseEntries_cons_pos (hb : Nat) (m : Bool) (n len u v : Nat)
    (bs : List Nat) (hlen : 0 < len) :
    parseEntries hb m (n + 1) (len :: u :: v :: bs) =
      ((len, read16 hb (if m then [v, u] else [u, v])) ::
          (parseEntries hb m n bs).1,
        (parseEntries hb m n bs).2) := by
  simp only [parseEntries, List.headD_cons, List.tail_cons, if_pos hlen]
  have ht : (u :: v :: bs).take 2 = [u, v] := rfl
  have hd : (u :: v :: bs).drop 2 = bs := rfl
  rw [ht, hd]
  cases m <;> simp

theorem parseEntries_cons_zero (hb : Nat) (m : Bool) (n : Nat)
    (bs : List Nat) :
    parseEntries hb m (n + 1) (0 :: bs) =
      ((0, 0) :: (parseEntries hb m n bs).1, (parseEntries hb m n bs).2) := by
  simp [parseEntries]

theorem bytes16_pair (o w : Nat) : ∃ u v, bytes16 o w = [u, v] := by
  unfold bytes16; split <;> exact ⟨_, _, rfl⟩

theorem parseEntries_serEntries (hb : Nat) (lens bitv : Nat → Nat)
    (hbits : ∀ i, bitv i < U16) :
    ∀ (is : List Nat) (rest : List Nat),
      parseEntries hb false is.length (serEntries hb lens bitv is ++ rest) =
        (is.map (fun i => (lens i, if 0 < lens i then bitv i else 0)), rest) := by
  intro is
  induction is with
  | nil => intro rest; simp [serEntries, parseEntries]
  | cons i tl ih =>
      intro rest
      have hser : serEntries hb lens bitv (i :: tl) =
          lens i :: (if 0 < lens i then bytes16 hb (bitv i) else []) ++
            serEntries hb lens bitv tl := rfl
      rw [hser, List.length_cons]
      by_cases hz : 0 < lens i
      · obtain ⟨u, v, huv⟩ := bytes16_pair hb (bitv i)
        rw [if_pos hz, huv]
        simp only [List.cons_append, List.nil_append, List.append_assoc]
        rw [parseEntries_cons_pos hb false tl.length (lens i) u v _ hz,
          ih rest]
        have hr : read16 hb (if false then [v, u] else [u, v]) = bitv i := by
          rw [if_neg (by simp), ← huv, read16_bytes16 hb (bitv i) (hbits i)]
        rw [hr]
        simp [hz]
      · have hz0 : lens i = 0 := by omega
        rw [if_neg hz, hz0]
        simp only [List.cons_append, List.nil_append, List.append_assoc]
        rw [parseEntries_cons_zero, ih rest]
        simp [hz, hz0]

theorem parseEntries_serEntriesSwapped (hb : Nat) (lens bitv : Nat → Nat)
    (hbits : ∀ i, bitv i < U16) :
    ∀ (is : List Nat) (rest : List Nat),
      parseEntries hb true is.length (serEntriesSwapped hb lens bitv is ++ rest) =
        (is.map (fun i => (lens i, if 0 < lens i then bitv i else 0)), rest) := by
  intro is
  induction is with
  | nil => intro rest; simp [serEntriesSwapped, parseEntries]
  | cons i tl ih =>
      intro rest
      have hser : serEntriesSwapped hb lens bitv (i :: tl) =
          lens i :: (if 0 < lens i then (bytes16 hb (bitv i)).reverse else []) ++
            serEntriesSwapped hb lens bitv tl := rfl
      rw [hser, List.length_cons]
      by_cases hz : 0 < lens i
      · obtain ⟨u, v, huv⟩ := bytes16_pair hb (bitv i)
        rw [if_pos hz, huv]
        have hrev : ([u, v] : List Nat).reverse = [v, u] := rfl
        rw [hrev]
        simp only [List.cons_append, List.nil_append, List.append_assoc]
        rw [parseEntries_cons_pos hb true tl.length (lens i) v u _ hz,
          ih rest]
        have hr : read16 hb (if true then [u, v] else [v, u]) = bitv i := by
          rw [if_pos (by simp), ← huv, read16_bytes16 hb (bitv i) (hbits i)]
        rw [hr]
        simp [hz]
      · have hz0 : lens i = 0 := by omega
        rw [if_neg hz, hz0]
        simp only [List.cons_append, List.nil_append, List.append_assoc]
        rw [parseEntries_cons_zero, ih rest]
        simp [hz, hz0]

theorem parseEntries_serEntries_range (hb : Nat) (lens bitv : Nat → Nat)
    (hbits : ∀ i, bitv i < U16) (rest : List Nat) :
    parseEntries hb false 256 (serEntries hb lens bitv (List.range 256) ++ rest) =
      ((List.range 256).map (fun i => (lens i, if 0 < lens i then bitv i else 0)),
        rest) := by
  have h := parseEntries_serEntries hb lens bitv hbits (List.range 256) rest
  rwa [List.length_range] at h

theorem parseEntries_serEntriesSwapped_range (hb : Nat) (lens bitv : Nat → Nat)
    (hbits : ∀ i, bitv i < U16) (rest : List Nat) :
    parseEntries hb true 256
        (serEntriesSwapped hb lens bitv (List.range 256) ++ rest) =
      ((List.range 256).map (fun i => (lens i, if 0 < lens i then bitv i else 0)),
        rest) := by
  have h := parseEntries_serEntriesSwapped hb lens bitv hbits (List.range 256) rest
  rwa [List.length_range] at h

theorem bytes32_quad (o w : Nat) : ∃ a b c d, bytes32 o w = [a, b, c, d] := by
  unfold bytes32; split <;> exact ⟨_, _, _, _, rfl⟩

theorem vcDeserialize_apply (hb flag : Nat) (e0 e1 e2 e3 : Nat)
    (entryBytes : List Nat) :
    vcDeserialize hb (flag :: e0 :: e1 :: e2 :: e3 :: entryBytes) =
      { isbig := hb
        codebits := fun i => if i < 256 then
          (((parseEntries hb (hb ≠ flag) 256 entryBytes).1).getD i (0, 0)).2 else 0
        codelens := fun i => if i < 256 then
          (((parseEntries hb (hb ≠ flag) 256 entryBytes).1).getD i (0, 0)).1 else 0
        lookup := lookupFun
          (fun i => if i < 256 then
            (((parseEntries hb (hb ≠ flag) 256 entryBytes).1).getD i (0, 0)).1 else 0)
          (fun i => if i < 256 then
            (((parseEntries hb (hb ≠ flag) 256 entryBytes).1).getD i (0, 0)).2 else 0)
        esc_code := toInt32 (read32 hb
          (if hb ≠ flag then [e3, e2, e1, e0] else [e0, e1, e2, e3])) } := rfl

theorem getD_map_range {α : Type} (f : Nat → α) (n i : Nat) (hi : i < n) (d : α) :
    ((List.range n).map f).getD i d = f i := by
  rw [List.getD_eq_getElem?_getD, List.getElem?_map, List.getElem?_range hi]
  rfl

theorem lookupFun_congr (l1 b1 l2 b2 : Nat → Nat)
    (h : ∀ i, i < 256 → l1 i = l2 i ∧ b1 i = b2 i) :
    lookupFun l1 b1 = lookupFun l2 b2 := by
  funext v
  unfold lookupFun
  have key : ∀ (is : List Nat) (acc : Option Nat), (∀ i ∈ is, i < 256) →
      is.foldl (fun acc i =>
        if 0 < l1 i ∧ (b1 i * 2 ^ (16 - l1 i)) % U16 ≤ v ∧
            v < (b1 i * 2 ^ (16 - l1 i)) % U16 + 2 ^ (16 - l1 i)
        then some i else acc) acc =
      is.foldl (fun acc i =>
        if 0 < l2 i ∧ (b2 i * 2 ^ (16 - l2 i)) % U16 ≤ v ∧
            v < (b2 i * 2 ^ (16 - l2 i)) % U16 + 2 ^ (16 - l2 i)
        then some i else acc) acc := by
    intro is
    induction is with
    | nil => intro acc _; rfl
    | cons i tl ih =>
        intro acc hmem
        simp only [List.foldl_cons]
        rw [(h i (hmem i (by simp))).1, (h i (hmem i (by simp))).2]
        exact ih _ (fun j hj => hmem j (List.mem_cons_of_mem i hj))
  exact key (List.range 256) none (fun i hi => List.mem_range.1 hi)

set_option maxHeartbeats 2000000 in
/-- C8.  Serialisation round-trip for an arbitrary coded (non-DNA)
compressor: `vcDeserialize (vcSerialize c)` recovers identical `length`,
`bits`, `escape` and `lookup` tables for every byte; and the same identity
holds cross-endian, i.e. for the blob with the stored endian flag flipped
and the 4-byte escape field and every 2-byte `bits` entry byte-swapped. -/
theorem C8_serialisation_roundtrip (hb : Nat) (lens bitv : Nat → Nat)
    (esc : Int) (hb01 : hb = 0 ∨ hb = 1)
    (hbits : ∀ i, bitv i < U16)
    (hzero : ∀ i, lens i = 0 → bitv i = 0)
    (he1 : -2 ^ 31 ≤ esc) (he2 : esc < 2 ^ 31) :
    (∀ i, i < 256 →
        (vcDeserialize hb (vcSerialize
            ⟨hb, bitv, lens, lookupFun lens bitv, esc⟩)).codelens i = lens i ∧
        (vcDeserialize hb (vcSerialize
            ⟨hb, bitv, lens, lookupFun lens bitv, esc⟩)).codebits i = bitv i) ∧
      (vcDeserialize hb (vcSerialize
          ⟨hb, bitv, lens, lookupFun lens bitv, esc⟩)).esc_code = esc ∧
      (vcDeserialize hb (vcSerialize
          ⟨hb, bitv, lens, lookupFun lens bitv, esc⟩)).lookup =
        lookupFun lens bitv ∧
      (∀ i, i < 256 →
        (vcDeserialize hb (flippedBlob
            ⟨hb, bitv, lens, lookupFun lens bitv, esc⟩)).codelens i = lens i ∧
        (vcDeserialize hb (flippedBlob
            ⟨hb, bitv, lens, lookupFun lens bitv, esc⟩)).codebits i = bitv i) ∧
      (vcDeserialize hb (flippedBlob
          ⟨hb, bitv, lens, lookupFun lens bitv, esc⟩)).esc_code = esc ∧
      (vcDeserialize hb (flippedBlob
          ⟨hb, bitv, lens, lookupFun lens bitv, esc⟩)).lookup =
        lookupFun lens bitv := by
  have hen : ((esc % 2 ^ 32).toNat) < 2 ^ 32 := by
    have h3 : (0 : Int) ≤ esc % 2 ^ 32 := Int.emod_nonneg _ (by norm_num)
    have h4 : esc % 2 ^ 32 < 2 ^ 32 := Int.emod_lt_of_pos _ (by norm_num)
    omega
  obtain ⟨a, b, c2, d, habcd⟩ := bytes32_quad hb ((esc % 2 ^ 32).toNat)
  -- direct round-trip
  have hblob : vcSerialize ⟨hb, bitv, lens, lookupFun lens bitv, esc⟩ =
      hb :: a :: b :: c2 :: d ::
        serEntries hb lens bitv (List.range 256) := by
    have h0 : vcSerialize ⟨hb, bitv, lens, lookupFun lens bitv, esc⟩ =
        hb :: (bytes32 hb ((esc % 2 ^ 32).toNat) ++
          serEntries hb lens bitv (List.range 256)) := rfl
    rw [h0, habcd]; rfl
  have hflip : flippedBlob ⟨hb, bitv, lens, lookupFun lens bitv, esc⟩ =
      (1 - hb) :: d :: c2 :: b :: a ::
        serEntriesSwapped hb lens bitv (List.range 256) := by
    have h0 : flippedBlob ⟨hb, bitv, lens, lookupFun lens bitv, esc⟩ =
        (1 - hb) :: ((bytes32 hb ((esc % 2 ^ 32).toNat)).reverse ++
          serEntriesSwapped hb lens bitv (List.range 256)) := rfl
    rw [h0, habcd]; rfl
  have hmis1 : (hb ≠ hb) = False := by simp
  have hmis2 : (hb ≠ 1 - hb) = True := by
    rcases hb01 with rfl | rfl <;> simp
  have hparse1 := parseEntries_serEntries_range hb lens bitv hbits []
  have hparse2 := parseEntries_serEntriesSwapped_range hb lens bitv hbits []
  rw [List.append_nil] at hparse1 hparse2
  have hread : read32 hb [a, b, c2, d] = (esc % 2 ^ 32).toNat := by
    rw [← habcd]; exact read32_bytes32 hb _ hen
  have hentry : ∀ i, i < 256 →
      (((List.range 256).map
        (fun i => (lens i, if 0 < lens i then bitv i else 0))).getD i (0, 0)) =
        (lens i, if 0 < lens i then bitv i else 0) := by
    intro i hi
    exact getD_map_range _ 256 i hi (0, 0)
  have hbv : ∀ i, (if 0 < lens i then bitv i else 0) = bitv i := by
    intro i
    by_cases hz : 0 < lens i
    · rw [if_pos hz]
    · rw [if_neg hz, hzero i (by omega)]
  rw [hblob, hflip, vcDeserialize_apply, vcDeserialize_apply]
  have hnot1 : ¬ (hb ≠ hb) := by simp
  have hyes2 : hb ≠ 1 - hb := by rcases hb01 with rfl | rfl <;> simp
  have hdec1 : decide (hb ≠ hb) = false := by simp
  have hdec2 : decide (hb ≠ 1 - hb) = true := by
    rcases hb01 with rfl | rfl <;> rfl
  rw [if_neg hnot1, if_pos hyes2, hdec1, hdec2, hparse1, hparse2]
  have hL : ∀ i, i < 256 →
      (if i < 256 then
        (((List.range 256).map
          (fun i => (lens i, if 0 < lens i then bitv i else 0))).getD i (0, 0)).1
      else 0) = lens i := by
    intro i hi
    rw [if_pos hi, hentry i hi]
  have hB : ∀ i, i < 256 →
      (if i < 256 then
        (((List.range 256).map
          (fun i => (lens i, if 0 < lens i then bitv i else 0))).getD i (0, 0)).2
      else 0) = bitv i := by
    intro i hi
    rw [if_pos hi, hentry i hi]
    exact hbv i
  have hlook : lookupFun
      (fun i => if i < 256 then
        (((List.range 256).map
          (fun i => (lens i, if 0 < lens i then bitv i else 0))).getD i (0, 0)).1
        else 0)
      (fun i => if i < 256 then
        (((List.range 256).map
          (fun i => (lens i, if 0 < lens i then bitv i else 0))).getD i (0, 0)).2
        else 0) = lookupFun lens bitv :=
    lookupFun_congr _ _ _ _ (fun i hi => ⟨hL i hi, hB i hi⟩)
  refine ⟨fun i hi => ⟨hL i hi, hB i hi⟩, ?_, hlook,
    fun i hi => ⟨hL i hi, hB i hi⟩, ?_, hlook⟩
  · show toInt32 (read32 hb [a, b, c2, d]) = esc
    rw [hread]
    exact toInt32_emod esc he1 he2
  · show toInt32 (read32 hb [a, b, c2, d]) = esc
    rw [hread]
    exact toInt32_emod esc he1 he2


/-- Witness for C8 at a concrete two-codeword table on a little-endian
host with `esc_code = -1`. -/
theorem C8_serialisation_roundtrip_witness :
    ((0 : Nat) = 0 ∨ (0 : Nat) = 1) ∧ (∀ i, bitsW i < U16) ∧
      (∀ i, lensW i = 0 → bitsW i = 0) ∧
      (-2 ^ 31 ≤ (-1 : Int)) ∧ ((-1 : Int) < 2 ^ 31) ∧
      ((∀ i, i < 256 →
          (vcDeserialize 0 (vcSerialize
              ⟨0, bitsW, lensW, lookupFun lensW bitsW, -1⟩)).codelens i = lensW i ∧
          (vcDeserialize 0 (vcSerialize
              ⟨0, bitsW, lensW, lookupFun lensW bitsW, -1⟩)).codebits i = bitsW i) ∧
        (vcDeserialize 0 (vcSerialize
            ⟨0, bitsW, lensW, lookupFun lensW bitsW, -1⟩)).esc_code = -1 ∧
        (vcDeserialize 0 (vcSerialize
            ⟨0, bitsW, lensW, lookupFun lensW bitsW, -1⟩)).lookup =
          lookupFun lensW bitsW ∧
        (∀ i, i < 256 →
          (vcDeserialize 0 (flippedBlob
              ⟨0, bitsW, lensW, lookupFun lensW bitsW, -1⟩)).codelens i = lensW i ∧
          (vcDeserialize 0 (flippedBlob
              ⟨0, bitsW, lensW, lookupFun lensW bitsW, -1⟩)).codebits i = bitsW i) ∧
        (vcDeserialize 0 (flippedBlob
            ⟨0, bitsW, lensW, lookupFun lensW bitsW, -1⟩)).esc_code = -1 ∧
        (vcDeserialize 0 (flippedBlob
            ⟨0, bitsW, lensW, lookupFun lensW bitsW, -1⟩)).lookup =
          lookupFun lensW bitsW) := by
  have hbits : ∀ i, bitsW i < U16 := by
    intro i; simp only [bitsW]; split <;> norm_num [U16]
  have hzero : ∀ i, lensW i = 0 → bitsW i = 0 := by
    intro i h
    by_cases h0 : i = 0 ∨ i = 1
    · simp [lensW, h0] at h
    · have h1 : ¬ i = 0 := fun he => h0 (Or.inl he)
      simp [bitsW, h1]
  exact ⟨Or.inl rfl, hbits, hzero, by norm_num, by norm_num,
    C8_serialisation_roundtrip 0 lensW bitsW (-1) (Or.inl rfl) hbits hzero
      (by norm_num) (by norm_num)⟩

/-! ## C2: the coin filter respects the Kraft budget -/

theorem btLevel_eq_foldl (row : List Bool) (span : Nat) (leng : List Nat) :
    btLevel row span leng = (row.take span).foldl btStep (0, leng) := rfl

theorem getD_set (l : List Nat) (i n v : Nat) :
    (l.set i v).getD n 0 =
      if n = i ∧ i < l.length then v else l.getD n 0 := by
  induction l generalizing i n with
  | nil => simp
  | cons a tl ih =>
      cases i with
      | zero =>
          cases n with
          | zero => simp
          | succ m => simp
      | succ j =>
          cases n with
          | zero => simp
          | succ m =>
              simp only [List.set_cons_succ, List.getD_cons_succ]
              rw [ih j m]
              simp only [List.length_cons]
              by_cases h : m = j ∧ j < tl.length
              · rw [if_pos h, if_pos ⟨by omega, by omega⟩]
              · rw [if_neg h, if_neg (by omega)]

theorem btFold_fst (bs : List Bool) : ∀ (k : Nat) (leng : List Nat),
    (bs.foldl btStep (k, leng)).1 = k + bs.count true := by
  induction bs with
  | nil => intro k leng; simp
  | cons b tl ih =>
      intro k leng
      cases b
      · rw [List.foldl_cons]
        show (tl.foldl btStep (k, leng)).1 = _
        rw [ih k leng]
        simp [List.count_cons]
      · rw [List.foldl_cons]
        show (tl.foldl btStep (k + 1, leng.set k (leng.getD k 0 + 1))).1 = _
        rw [ih]
        simp [List.count_cons]
        omega

theorem btFold_len (bs : List Bool) : ∀ (k : Nat) (leng : List Nat),
    (bs.foldl btStep (k, leng)).2.length = leng.length := by
  induction bs with
  | nil => intro k leng; rfl
  | cons b tl ih =>
      intro k leng
      cases b
      · rw [List.foldl_cons]
        show (tl.foldl btStep (k, leng)).2.length = _
        exact ih k leng
      · rw [List.foldl_cons]
        show (tl.foldl btStep (k + 1, leng.set k (leng.getD k 0 + 1))).2.length = _
        rw [ih]
        simp

theorem btFold_getD (bs : List Bool) : ∀ (k : Nat) (leng : List Nat) (n : Nat),
    n < leng.length →
    (bs.foldl btStep (k, leng)).2.getD n 0 =
      leng.getD n 0 + (if k ≤ n ∧ n < k + bs.count true then 1 else 0) := by
  induction bs with
  | nil => intro k leng n hn; simp
  | cons b tl ih =>
      intro k leng n hn
      cases b
      · rw [List.foldl_cons]
        show (tl.foldl btStep (k, leng)).2.getD n 0 = _
        rw [ih k leng n hn]
        simp [List.count_cons]
      · rw [List.foldl_cons]
        show (tl.foldl btStep (k + 1, leng.set k (leng.getD k 0 + 1))).2.getD n 0 = _
        rw [ih (k + 1) _ n (by simpa using hn)]
        rw [getD_set leng k n _]
        rcases eq_or_ne n k with h | h
        · subst h
          rw [if_pos ⟨rfl, hn⟩]
          have h1 : ¬ (n + 1 ≤ n ∧ n < n + 1 + tl.count true) := by omega
          have h2 : n ≤ n ∧ n < n + (true :: tl).count true := by
            simp [List.count_cons]
          rw [if_neg h1, if_pos h2]
        · rw [if_neg (by omega)]
          have h3 : (k + 1 ≤ n ∧ n < k + 1 + tl.count true) ↔
              (k ≤ n ∧ n < k + (true :: tl).count true) := by
            simp [List.count_cons]
            omega
          simp only [h3]

theorem btLevel_fst (row : List Bool) (span : Nat) (leng : List Nat) :
    (btLevel row span leng).1 = (row.take span).count true := by
  rw [btLevel_eq_foldl, btFold_fst]
  simp

theorem btLevel_snd_len (row : List Bool) (span : Nat) (leng : List Nat) :
    (btLevel row span leng).2.length = leng.length := by
  rw [btLevel_eq_foldl, btFold_len]

theorem btLevel_getD (row : List Bool) (span : Nat) (leng : List Nat)
    (n : Nat) (hn : n < leng.length) :
    (btLevel row span leng).2.getD n 0 =
      leng.getD n 0 + (if n < (row.take span).count true then 1 else 0) := by
  rw [btLevel_eq_foldl, btFold_getD _ _ _ _ hn]
  have h : (0 ≤ n ∧ n < 0 + (row.take span).count true) ↔
      n < (row.take span).count true := by omega
  simp only [h]

theorem btrace_closed (rows : List (List Bool)) : ∀ (span : Nat) (leng : List Nat),
    (btrace rows span leng).2 = (traceSpans rows span).2 ∧
    (btrace rows span leng).1.length = leng.length ∧
    ∀ n, n < leng.length →
      (btrace rows span leng).1.getD n 0 =
        leng.getD n 0 +
          ((traceSpans rows span).1.filter (fun j => n < j)).length := by
  induction rows with
  | nil =>
      intro span leng
      refine ⟨rfl, rfl, fun n hn => ?_⟩
      simp [btrace, traceSpans]
  | cons r rs ih =>
      intro span leng
      have hb : btrace (r :: rs) span leng =
          btrace rs (2 * (span - (btLevel r span leng).1))
            (btLevel r span leng).2 := rfl
      have ht2 : (traceSpans (r :: rs) span).2 =
          (traceSpans rs (2 * (span - (r.take span).count true))).2 := rfl
      have ht1 : (traceSpans (r :: rs) span).1 =
          (r.take span).count true ::
            (traceSpans rs (2 * (span - (r.take span).count true))).1 := rfl
      obtain ⟨ih1, ih2, ih3⟩ :=
        ih (2 * (span - (r.take span).count true)) (btLevel r span leng).2
      rw [hb, btLevel_fst]
      refine ⟨?_, ?_, ?_⟩
      · rw [ih1, ht2]
      · rw [ih2, btLevel_snd_len]
      · intro n hn
        rw [ih3 n (by rw [btLevel_snd_len]; exact hn)]
        rw [btLevel_getD _ _ _ _ hn, ht1, List.filter_cons]
        by_cases hj : n < (r.take span).count true
        · rw [if_pos hj]
          rw [if_pos (show decide (n < List.count true (List.take span r)) =
            true by simpa using hj)]
          rw [List.length_cons]
          omega
        · rw [if_neg hj]
          rw [if_neg (show ¬ decide (n < List.count true (List.take span r)) =
            true by simpa using hj)]
          omega

theorem lengList_length (cb : List Nat) : (lengList cb).length = cb.length := by
  unfold lengList
  rw [List.length_mapIdx]
  rw [(btrace_closed _ _ _).2.1]
  simp

theorem lengList_getD (cb : List Nat) (n : Nat) (hn : n < cb.length) :
    (lengList cb).getD n 0 =
      cntf (traceSpans (traceRows cb) (2 * (cb.length - 1))).1
        (traceSpans (traceRows cb) (2 * (cb.length - 1))).2 n := by
  unfold lengList
  obtain ⟨h1, h2, h3⟩ :=
    btrace_closed (traceRows cb) (2 * (cb.length - 1))
      (List.replicate cb.length 0)
  have hrl : (List.replicate cb.length (0 : Nat)).length = cb.length := by simp
  have hlen : (btrace (traceRows cb) (2 * (cb.length - 1))
      (List.replicate cb.length 0)).1.length = cb.length := by rw [h2, hrl]
  have hn' : n < (btrace (traceRows cb) (2 * (cb.length - 1))
      (List.replicate cb.length 0)).1.length := by rw [hlen]; exact hn
  rw [List.getD_eq_getElem _ _ (by rw [List.length_mapIdx]; exact hn')]
  rw [List.getElem_mapIdx]
  rw [← List.getD_eq_getElem _ 0 hn']
  rw [h3 n (by rw [hrl]; exact hn)]
  rw [h1]
  unfold cntf
  simp

theorem traceSpans_length (rows : List (List Bool)) :
    ∀ span : Nat, (traceSpans rows span).1.length = rows.length := by
  induction rows with
  | nil => intro span; rfl
  | cons r rs ih =>
      intro span
      show ((r.take span).count true :: _).length = _
      rw [List.length_cons, ih]
      rfl

theorem count_le_take_span (r : List Bool) (span : Nat) :
    (r.take span).count true ≤ span :=
  le_trans (List.count_le_length _ _) (List.length_take_le _ _)

theorem traceSpans_wsum (rows : List (List Bool)) :
    ∀ span : Nat,
      wsum (traceSpans rows span).1 (traceSpans rows span).2 =
        2 ^ rows.length * span := by
  induction rows with
  | nil => intro span; simp [traceSpans, wsum]
  | cons r rs ih =>
      intro span
      have ht1 : (traceSpans (r :: rs) span).1 =
          (r.take span).count true ::
            (traceSpans rs (2 * (span - (r.take span).count true))).1 := rfl
      have ht2 : (traceSpans (r :: rs) span).2 =
          (traceSpans rs (2 * (span - (r.take span).count true))).2 := rfl
      rw [ht1, ht2]
      show (r.take span).count true *
            2 ^ ((traceSpans rs (2 * (span - (r.take span).count true))).1.length + 1) +
          wsum _ _ = _
      rw [traceSpans_length, ih]
      have hj : (r.take span).count true ≤ span := count_le_take_span r span
      have hp : (2 : Nat) ^ (rs.length + 1) = 2 ^ rs.length * 2 := pow_succ 2 rs.length
      rw [List.length_cons, hp]
      have hs : span = (r.take span).count true + (span - (r.take span).count true) := by
        omega
      calc (r.take span).count true * (2 ^ rs.length * 2) +
            2 ^ rs.length * (2 * (span - (r.take span).count true))
          = 2 ^ rs.length * 2 *
              ((r.take span).count true + (span - (r.take span).count true)) := by ring
        _ = 2 ^ rs.length * 2 * span := by rw [← hs]

theorem count_true_add_false (l : List Bool) :
    l.count true + l.count false = l.length := by
  induction l with
  | nil => rfl
  | cons b tl ih =>
      cases b <;> simp [List.count_cons] <;> omega

theorem mergeRow_eq_other (base : List Nat) : ∀ (prev : List Nat),
    (∀ p0 p1 ps, prev = p0 :: p1 :: ps → False) →
    mergeRow base prev = base.map (fun b => (true, b))
  | [], _ => rfl
  | [_], _ => rfl
  | p0 :: p1 :: ps, h => absurd rfl (fun he => h p0 p1 ps he)

theorem span_lengths (base : List Nat) (s : Nat) :
    (base.span (fun b => decide (b ≤ s))).1.length +
      (base.span (fun b => decide (b ≤ s))).2.length = base.length := by
  rw [List.span_eq_take_drop, ← List.length_append]
  have h : base.takeWhile (fun b => decide (b ≤ s)) ++
      base.dropWhile (fun b => decide (b ≤ s)) = base := by simp
  rw [h]

theorem mergeRow_count_true (base prev : List Nat) :
    ((mergeRow base prev).map Prod.fst).count true = base.length := by
  induction base, prev using mergeRow.induct with
  | case1 base p0 p1 ps s t ih =>
      show ((t.1.map (fun b => (true, b)) ++
        (false, s) :: mergeRow t.2 ps).map Prod.fst).count true = _
      rw [List.map_append, List.count_append, List.map_cons, List.count_cons]
      rw [List.map_map, ih]
      have h1 : (t.1.map (Prod.fst ∘ fun b => (true, b))).count true =
          t.1.length := by
        simp [List.count_replicate]
      have h2 : t.1.length + t.2.length = base.length := span_lengths base s
      rw [h1]
      simp
      omega
  | case2 prev base h =>
      rw [mergeRow_eq_other base prev h, List.map_map]
      simp [List.count_replicate]

theorem mergeRow_count_false (base prev : List Nat) :
    ((mergeRow base prev).map Prod.fst).count false = prev.length / 2 := by
  induction base, prev using mergeRow.induct with
  | case1 base p0 p1 ps s t ih =>
      show ((t.1.map (fun b => (true, b)) ++
        (false, s) :: mergeRow t.2 ps).map Prod.fst).count false = _
      rw [List.map_append, List.count_append, List.map_cons, List.count_cons]
      rw [List.map_map, ih]
      have h1 : (t.1.map (Prod.fst ∘ fun b => (true, b))).count false = 0 := by
        simp [List.count_replicate]
      rw [h1]
      simp only [List.length_cons]
      simp
      omega
  | case2 prev base h =>
      rw [mergeRow_eq_other base prev h, List.map_map]
      rcases prev with _ | ⟨p, _ | ⟨q, ps⟩⟩
      · simp [List.count_replicate]
      · simp [List.count_replicate]
      · exact absurd rfl (fun he => h p q ps he)

theorem mergeRow_length (base prev : List Nat) :
    (mergeRow base prev).length = base.length + prev.length / 2 := by
  induction base, prev using mergeRow.induct with
  | case1 base p0 p1 ps s t ih =>
      show (t.1.map (fun b => (true, b)) ++
        (false, s) :: mergeRow t.2 ps).length = _
      rw [List.length_append, List.length_map, List.length_cons, ih]
      have h2 : t.1.length + t.2.length = base.length := span_lengths base s
      simp only [List.length_cons]
      omega
  | case2 prev base h =>
      rw [mergeRow_eq_other base prev h, List.length_map]
      rcases prev with _ | ⟨p, _ | ⟨q, ps⟩⟩
      · rfl
      · show base.length = base.length + 1 / 2
        omega
      · exact absurd rfl (fun he => h p q ps he)

theorem coinRow_count_true (cb : List Nat) :
    ∀ k, ((coinRow cb k).map Prod.fst).count true = cb.length := by
  intro k
  cases k with
  | zero =>
      show ((cb.map (fun w => (true, w))).map Prod.fst).count true = _
      rw [List.map_map]
      simp [List.count_replicate]
  | succ k => exact mergeRow_count_true cb _

theorem coinRow_length_succ (cb : List Nat) (k : Nat) :
    (coinRow cb (k + 1)).length = cb.length + (coinRow cb k).length / 2 := by
  show (mergeRow cb ((coinRow cb k).map Prod.snd)).length = _
  rw [mergeRow_length, List.length_map]

theorem coinRow_count_false (cb : List Nat) (k : Nat) :
    ((coinRow cb (k + 1)).map Prod.fst).count false =
      (coinRow cb k).length / 2 := by
  show ((mergeRow cb ((coinRow cb k).map Prod.snd)).map Prod.fst).count false = _
  rw [mergeRow_count_false, List.length_map]

theorem coinRow_len_defic (cb : List Nat) :
    ∀ k, (coinRow cb k).length + defic cb.length k = 2 * cb.length ∧
      defic cb.length k ≤ cb.length := by
  intro k
  induction k with
  | zero =>
      have h0 : (coinRow cb 0).length = cb.length := by
        show (cb.map (fun w => (true, w))).length = _
        rw [List.length_map]
      have hd : defic cb.length 0 = cb.length := rfl
      omega
  | succ k ih =>
      have hd : defic cb.length (k + 1) = (defic cb.length k + 1) / 2 := rfl
      have hl := coinRow_length_succ cb k
      omega

theorem defic_le_two (N : Nat) (hN : N ≤ 256) : defic N 11 ≤ 2 := by
  have e0 : defic N 0 = N := rfl
  have e1 : defic N 1 = (defic N 0 + 1) / 2 := rfl
  have e2 : defic N 2 = (defic N 1 + 1) / 2 := rfl
  have e3 : defic N 3 = (defic N 2 + 1) / 2 := rfl
  have e4 : defic N 4 = (defic N 3 + 1) / 2 := rfl
  have e5 : defic N 5 = (defic N 4 + 1) / 2 := rfl
  have e6 : defic N 6 = (defic N 5 + 1) / 2 := rfl
  have e7 : defic N 7 = (defic N 6 + 1) / 2 := rfl
  have e8 : defic N 8 = (defic N 7 + 1) / 2 := rfl
  have e9 : defic N 9 = (defic N 8 + 1) / 2 := rfl
  have e10 : defic N 10 = (defic N 9 + 1) / 2 := rfl
  have e11 : defic N 11 = (defic N 10 + 1) / 2 := rfl
  omega

theorem traceRows_eq_rowsFrom (cb : List Nat) :
    traceRows cb = rowsFrom cb 11 := rfl

theorem traceSpans_le (cb : List Nat) :
    ∀ (k span : Nat), span ≤ (coinRow cb k).length →
      (traceSpans (rowsFrom cb k) span).2 ≤ cb.length := by
  intro k
  induction k with
  | zero =>
      intro span h
      have h0 : (coinRow cb 0).length = cb.length := by
        show (cb.map (fun w => (true, w))).length = _
        rw [List.length_map]
      show span ≤ cb.length
      omega
  | succ k ih =>
      intro span h
      show (traceSpans (rowsFrom cb k)
        (2 * (span - (((coinRow cb (k + 1)).map Prod.fst).take span).count
          true))).2 ≤ cb.length
      apply ih
      have hrl : ((coinRow cb (k + 1)).map Prod.fst).length =
          (coinRow cb (k + 1)).length := List.length_map _ _
      have htl : ((((coinRow cb (k + 1)).map Prod.fst)).take span).length =
          span := by
        rw [List.length_take]
        omega
      have hsum := count_true_add_false
        ((((coinRow cb (k + 1)).map Prod.fst)).take span)
      have hcf : ((((coinRow cb (k + 1)).map Prod.fst)).take span).count false ≤
          ((coinRow cb (k + 1)).map Prod.fst).count false :=
        (List.take_sublist _ _).count_le _
      have hcf2 := coinRow_count_false cb k
      have hls := coinRow_length_succ cb k
      omega

theorem spansFinal_le (cb : List Nat) (h256 : cb.length ≤ 256) :
    (traceSpans (traceRows cb) (2 * (cb.length - 1))).2 ≤ cb.length := by
  rw [traceRows_eq_rowsFrom]
  apply traceSpans_le cb 11
  have h1 := coinRow_len_defic cb 11
  have h2 := defic_le_two cb.length h256
  omega

theorem traceSpans_mem_le (M : Nat) :
    ∀ (rows : List (List Bool)) (span : Nat),
      (∀ r ∈ rows, r.count true ≤ M) →
      ∀ j ∈ (traceSpans rows span).1, j ≤ M := by
  intro rows
  induction rows with
  | nil => intro span _ j hj; simp [traceSpans] at hj
  | cons r rs ih =>
      intro span hr j hj
      have ht : (traceSpans (r :: rs) span).1 =
          (r.take span).count true ::
            (traceSpans rs (2 * (span - (r.take span).count true))).1 := rfl
      rw [ht] at hj
      rcases List.mem_cons.1 hj with h | h
      · subst h
        exact le_trans ((List.take_sublist _ _).count_le _)
          (hr r (List.mem_cons_self r rs))
      · exact ih _ (fun x hx => hr x (List.mem_cons_of_mem r hx)) j h

theorem traceRows_count_true (cb : List Nat) :
    ∀ r ∈ traceRows cb, r.count true = cb.length := by
  intro r hr
  rcases List.mem_map.1 hr with ⟨t, _, rfl⟩
  exact coinRow_count_true cb _

theorem traceRows_length (cb : List Nat) : (traceRows cb).length = 11 := by
  show ((List.range 11).map _).length = 11
  rw [List.length_map, List.length_range]

theorem sum_ite_lt (N s w : Nat) (hs : s ≤ N) :
    ∑ n ∈ Finset.range N, (if n < s then w else 0) = s * w := by
  classical
  have hf : (Finset.range N).filter (fun n => n < s) = Finset.range s := by
    ext x
    simp only [Finset.mem_filter, Finset.mem_range]
    omega
  rw [Finset.sum_ite, hf, Finset.sum_const, Finset.sum_const_zero, add_zero,
    Finset.card_range, smul_eq_mul]

theorem aval_sum (js : List Nat) : ∀ (s N : Nat),
    (∀ j ∈ js, j ≤ N) → s ≤ N →
    ∑ n ∈ Finset.range N, aval js s n = wsum js s := by
  induction js with
  | nil =>
      intro s N _ hs
      simp only [aval, wsum]
      rw [sum_ite_lt N s 1 hs, mul_one]
  | cons j tl ih =>
      intro s N hj hs
      simp only [aval, wsum]
      rw [Finset.sum_add_distrib]
      rw [sum_ite_lt N j (2 ^ (tl.length + 1)) (hj j (List.mem_cons_self j tl))]
      rw [ih s N (fun x hx => hj x (List.mem_cons_of_mem j hx)) hs]

theorem cntf_le (js : List Nat) (s n : Nat) : cntf js s n ≤ js.length + 1 := by
  unfold cntf
  have h := List.length_filter_le (fun j => decide (n < j)) js
  by_cases hs : n < s
  · rw [if_pos hs]; omega
  · rw [if_neg hs]; omega

theorem aval_add_pow_le (js : List Nat) : ∀ (s n : Nat),
    aval js s n + 2 ^ ((js.length + 1) - cntf js s n) ≤ 2 ^ (js.length + 1) := by
  induction js with
  | nil =>
      intro s n
      simp only [aval, cntf, List.filter_nil, List.length_nil, zero_add]
      by_cases h : n < s
      · rw [if_pos h]
        norm_num
      · rw [if_neg h]
        norm_num
  | cons j tl ih =>
      intro s n
      have hcnt : cntf (j :: tl) s n =
          (if n < j then 1 else 0) + cntf tl s n := by
        unfold cntf
        rw [List.filter_cons]
        by_cases h : n < j
        · rw [if_pos (show decide (n < j) = true by simpa using h), if_pos h,
            List.length_cons]
          omega
        · rw [if_neg (show ¬ decide (n < j) = true by simpa using h), if_neg h]
          omega
      have hc_le := cntf_le tl s n
      have hIH := ih s n
      simp only [aval, List.length_cons]
      by_cases h : n < j
      · rw [if_pos h, hcnt, if_pos h]
        have he : (tl.length + 1 + 1) - (1 + cntf tl s n) =
            (tl.length + 1) - cntf tl s n := by omega
        rw [he]
        have hp : (2 : Nat) ^ (tl.length + 1 + 1) =
            2 ^ (tl.length + 1) + 2 ^ (tl.length + 1) := by
          rw [pow_succ]; ring
        omega
      · rw [if_neg h, hcnt, if_neg h]
        simp only [zero_add]
        have he : (tl.length + 1 + 1) - cntf tl s n =
            ((tl.length + 1) - cntf tl s n) + 1 := by omega
        rw [he, show (2 : Nat) ^ (((tl.length + 1) - cntf tl s n) + 1) =
          2 ^ ((tl.length + 1) - cntf tl s n) * 2 from pow_succ 2 _]
        have h3 : (2 : Nat) ^ ((tl.length + 1) - cntf tl s n) ≤
            2 ^ (tl.length + 1) :=
          Nat.pow_le_pow_right (by norm_num) (by omega)
        have hp : (2 : Nat) ^ (tl.length + 1 + 1) =
            2 ^ (tl.length + 1) + 2 ^ (tl.length + 1) := by
          rw [pow_succ]; ring
        omega

theorem lengList_sum_le (cb : List Nat) (h256 : cb.length ≤ 256) :
    (∑ n ∈ Finset.range cb.length, 2 ^ (12 - (lengList cb).getD n 0)) ≤ 2 ^ 12 ∧
    (∀ n, n < cb.length → (lengList cb).getD n 0 ≤ 12) := by
  have hjsl : (traceSpans (traceRows cb) (2 * (cb.length - 1))).1.length = 11 := by
    rw [traceSpans_length, traceRows_length]
  have hleng : ∀ n, n < cb.length → (lengList cb).getD n 0 =
      cntf (traceSpans (traceRows cb) (2 * (cb.length - 1))).1
        (traceSpans (traceRows cb) (2 * (cb.length - 1))).2 n :=
    fun n hn => lengList_getD cb n hn
  have hcut : ∀ n, n < cb.length → (lengList cb).getD n 0 ≤ 12 := by
    intro n hn
    rw [hleng n hn]
    have := cntf_le (traceSpans (traceRows cb) (2 * (cb.length - 1))).1
      (traceSpans (traceRows cb) (2 * (cb.length - 1))).2 n
    omega
  refine ⟨?_, hcut⟩
  have hper : ∀ n, aval (traceSpans (traceRows cb) (2 * (cb.length - 1))).1
      (traceSpans (traceRows cb) (2 * (cb.length - 1))).2 n +
      2 ^ (12 - cntf (traceSpans (traceRows cb) (2 * (cb.length - 1))).1
        (traceSpans (traceRows cb) (2 * (cb.length - 1))).2 n) ≤ 2 ^ 12 := by
    intro n
    have := aval_add_pow_le (traceSpans (traceRows cb) (2 * (cb.length - 1))).1
      (traceSpans (traceRows cb) (2 * (cb.length - 1))).2 n
    rw [hjsl] at this
    exact this
  have hsum_aval : ∑ n ∈ Finset.range cb.length,
      aval (traceSpans (traceRows cb) (2 * (cb.length - 1))).1
        (traceSpans (traceRows cb) (2 * (cb.length - 1))).2 n =
      wsum (traceSpans (traceRows cb) (2 * (cb.length - 1))).1
        (traceSpans (traceRows cb) (2 * (cb.length - 1))).2 := by
    apply aval_sum
    · intro j hj
      exact traceSpans_mem_le cb.length (traceRows cb) _
        (fun r hr => le_of_eq (traceRows_count_true cb r hr)) j hj
    · exact spansFinal_le cb h256
  have hws : wsum (traceSpans (traceRows cb) (2 * (cb.length - 1))).1
      (traceSpans (traceRows cb) (2 * (cb.length - 1))).2 =
      2 ^ 11 * (2 * (cb.length - 1)) := by
    rw [traceSpans_wsum, traceRows_length]
  have hbig : ∑ n ∈ Finset.range cb.length,
      (aval (traceSpans (traceRows cb) (2 * (cb.length - 1))).1
        (traceSpans (traceRows cb) (2 * (cb.length - 1))).2 n +
       2 ^ (12 - cntf (traceSpans (traceRows cb) (2 * (cb.length - 1))).1
        (traceSpans (traceRows cb) (2 * (cb.length - 1))).2 n)) ≤
      cb.length * 2 ^ 12 := by
    calc _ ≤ ∑ _n ∈ Finset.range cb.length, 2 ^ 12 :=
            Finset.sum_le_sum (fun n _ => hper n)
      _ = cb.length * 2 ^ 12 := by
            rw [Finset.sum_const, Finset.card_range, smul_eq_mul]
  rw [Finset.sum_add_distrib, hsum_aval, hws] at hbig
  have hterms : ∑ n ∈ Finset.range cb.length,
      2 ^ (12 - (lengList cb).getD n 0) =
      ∑ n ∈ Finset.range cb.length,
      2 ^ (12 - cntf (traceSpans (traceRows cb) (2 * (cb.length - 1))).1
        (traceSpans (traceRows cb) (2 * (cb.length - 1))).2 n) := by
    apply Finset.sum_congr rfl
    intro n hn
    rw [hleng n (Finset.mem_range.1 hn)]
  rw [hterms]
  have h11 : (2 : Nat) ^ 11 = 2048 := by norm_num
  have h12 : (2 : Nat) ^ 12 = 4096 := by norm_num
  rw [h11, h12] at hbig
  rw [h12]
  omega

theorem sortedCodes_length_le (hist : Nat → Nat) (part : Bool) :
    (sortedCodes hist part).length ≤ 256 := by
  rw [List.Perm.length_eq (sortedCodes_perm hist part)]
  have h := List.Sublist.length_le
    (collectCodes_sublist hist (List.range 256) (if part then -1 else 0))
  simpa using h

theorem foldl_update_not_mem :
    ∀ (ps : List (Nat × Nat)) (g : Nat → Nat) (k : Nat),
      (∀ p ∈ ps, p.1 ≠ k) →
      (ps.foldl (fun f p => Function.update f p.1 p.2) g) k = g k := by
  intro ps
  induction ps with
  | nil => intro g k _; rfl
  | cons p ps ih =>
      intro g k h
      rw [List.foldl_cons]
      rw [ih _ k (fun q hq => h q (List.mem_cons_of_mem p hq))]
      exact Function.update_noteq
        (fun he => h p (List.mem_cons_self p ps) he.symm) _ _

theorem scatter_not_mem (codes vals : List Nat) (b : Nat) (hb : b ∉ codes) :
    scatter codes vals b = 0 := by
  unfold scatter
  apply foldl_update_not_mem
  intro p hp he
  obtain ⟨a, c⟩ := p
  exact hb (he ▸ (List.of_mem_zip hp).1)

theorem foldl_update_getD :
    ∀ (codes vals : List Nat) (g : Nat → Nat), codes.Nodup →
      ∀ n, n < codes.length → n < vals.length →
      ((codes.zip vals).foldl (fun f p => Function.update f p.1 p.2) g)
          (codes.getD n 0) = vals.getD n 0 := by
  intro codes
  induction codes with
  | nil => intro vals g _ n hn; simp at hn
  | cons c cs ih =>
      intro vals g hnd n hn hv
      cases vals with
      | nil => simp at hv
      | cons v vs =>
          rw [List.zip_cons_cons, List.foldl_cons]
          cases n with
          | zero =>
              rw [List.getD_cons_zero, List.getD_cons_zero]
              rw [foldl_update_not_mem]
              · exact Function.update_same c v g
              · intro p hp he
                obtain ⟨a, w⟩ := p
                exact (List.nodup_cons.1 hnd).1 (he ▸ (List.of_mem_zip hp).1)
          | succ m =>
              rw [List.getD_cons_succ, List.getD_cons_succ]
              exact ih vs (Function.update g c v) (List.nodup_cons.1 hnd).2 m
                (by simpa using hn) (by simpa using hv)

theorem scatter_getD (codes vals : List Nat) (hnd : codes.Nodup) (n : Nat)
    (h1 : n < codes.length) (h2 : n < vals.length) :
    scatter codes vals (codes.getD n 0) = vals.getD n 0 :=
  foldl_update_getD codes vals _ hnd n h1 h2

theorem sum_list_range (N : Nat) (h : Nat → Nat) :
    ((List.range N).map h).sum = ∑ i ∈ Finset.range N, h i := by
  induction N with
  | zero => simp
  | succ n ih =>
      rw [List.range_succ, List.map_append, List.sum_append,
        Finset.sum_range_succ, ih]
      simp

theorem codelens_eq_scatter (isbig : Nat) (hist : Nat → Nat) (part : Bool) :
    (vcCreateCodec isbig hist part).codelens =
      scatter (sortedCodes hist part)
        (lengList ((sortedCodes hist part).map (fun c => hist c % U64))) := rfl

theorem codelens_le_cutoff (isbig : Nat) (hist : Nat → Nat) (part : Bool) :
    ∀ b, (vcCreateCodec isbig hist part).codelens b ≤ 12 := by
  intro b
  rw [codelens_eq_scatter]
  by_cases hb : b ∈ sortedCodes hist part
  · obtain ⟨n, hn, hget⟩ := List.mem_iff_getElem.1 hb
    have hcb : ((sortedCodes hist part).map (fun c => hist c % U64)).length =
        (sortedCodes hist part).length := List.length_map _ _
    have hgetD : (sortedCodes hist part).getD n 0 = b := by
      rw [List.getD_eq_getElem _ _ hn, hget]
    rw [← hgetD]
    rw [scatter_getD _ _ (sortedCodes_nodup hist part) n hn
      (by rw [lengList_length, hcb]; exact hn)]
    exact (lengList_sum_le _
      (le_trans (le_of_eq hcb) (sortedCodes_length_le hist part))).2 n
      (by rw [hcb]; exact hn)
  · rw [scatter_not_mem _ _ _ hb]
    norm_num

theorem kraftNat_le (isbig : Nat) (hist : Nat → Nat) (part : Bool) :
    kraftNat (vcCreateCodec isbig hist part).codelens ≤ 2 ^ 12 := by
  rw [codelens_eq_scatter]
  have hnd := sortedCodes_nodup hist part
  have hcb : ((sortedCodes hist part).map (fun c => hist c % U64)).length =
      (sortedCodes hist part).length := List.length_map _ _
  have h256 : ((sortedCodes hist part).map (fun c => hist c % U64)).length ≤
      256 := le_trans (le_of_eq hcb) (sortedCodes_length_le hist part)
  have hLlen : (lengList ((sortedCodes hist part).map
      (fun c => hist c % U64))).length = (sortedCodes hist part).length := by
    rw [lengList_length, hcb]
  have hzero : ∀ b ∈ Finset.range 256, b ∉ (sortedCodes hist part).toFinset →
      (if 0 < scatter (sortedCodes hist part)
            (lengList ((sortedCodes hist part).map (fun c => hist c % U64))) b
        then 2 ^ (12 - scatter (sortedCodes hist part)
            (lengList ((sortedCodes hist part).map (fun c => hist c % U64))) b)
        else 0) = 0 := by
    intro b _ hb
    rw [scatter_not_mem _ _ _ (fun h => hb (List.mem_toFinset.2 h))]
    simp
  have hsubset : (sortedCodes hist part).toFinset ⊆ Finset.range 256 := by
    intro b hb
    exact Finset.mem_range.2 (sortedCodes_lt hist part b (List.mem_toFinset.1 hb))
  have hstep1 : kraftNat (scatter (sortedCodes hist part)
      (lengList ((sortedCodes hist part).map (fun c => hist c % U64)))) =
      ∑ b ∈ (sortedCodes hist part).toFinset,
        (if 0 < scatter (sortedCodes hist part)
            (lengList ((sortedCodes hist part).map (fun c => hist c % U64))) b
          then 2 ^ (12 - scatter (sortedCodes hist part)
            (lengList ((sortedCodes hist part).map (fun c => hist c % U64))) b)
          else 0) := by
    rw [kraftNat]
    exact (Finset.sum_subset hsubset hzero).symm
  rw [hstep1, List.sum_toFinset _ hnd]
  have hstep3 : (sortedCodes hist part).map
      (fun b => if 0 < scatter (sortedCodes hist part)
          (lengList ((sortedCodes hist part).map (fun c => hist c % U64))) b
        then 2 ^ (12 - scatter (sortedCodes hist part)
          (lengList ((sortedCodes hist part).map (fun c => hist c % U64))) b)
        else 0) =
      (List.range (sortedCodes hist part).length).map
        (fun n => if 0 < (lengList ((sortedCodes hist part).map
            (fun c => hist c % U64))).getD n 0
          then 2 ^ (12 - (lengList ((sortedCodes hist part).map
            (fun c => hist c % U64))).getD n 0)
          else 0) := by
    apply List.ext_getElem
    · rw [List.length_map, List.length_map, List.length_range]
    · intro n h1 h2
      rw [List.getElem_map, List.getElem_map, List.getElem_range]
      have hn : n < (sortedCodes hist part).length := by simpa using h1
      have hsg : scatter (sortedCodes hist part)
          (lengList ((sortedCodes hist part).map (fun c => hist c % U64)))
          (sortedCodes hist part)[n] =
          (lengList ((sortedCodes hist part).map
            (fun c => hist c % U64))).getD n 0 := by
        have hh := scatter_getD (sortedCodes hist part)
          (lengList ((sortedCodes hist part).map (fun c => hist c % U64)))
          hnd n hn (by rw [hLlen]; exact hn)
        rw [List.getD_eq_getElem _ _ hn] at hh
        exact hh
      rw [hsg]
  rw [hstep3]
  have hstep4 : ((List.range (sortedCodes hist part).length).map
      (fun n => if 0 < (lengList ((sortedCodes hist part).map
          (fun c => hist c % U64))).getD n 0
        then 2 ^ (12 - (lengList ((sortedCodes hist part).map
          (fun c => hist c % U64))).getD n 0)
        else 0)).sum ≤
      ((List.range (sortedCodes hist part).length).map
        (fun n => 2 ^ (12 - (lengList ((sortedCodes hist part).map
          (fun c => hist c % U64))).getD n 0))).sum := by
    apply List.sum_le_sum
    intro n _
    split
    · exact le_refl _
    · exact Nat.zero_le _
  refine le_trans hstep4 ?_
  rw [sum_list_range]
  have hfinal := (lengList_sum_le ((sortedCodes hist part).map
    (fun c => hist c % U64)) h256).1
  rw [hcb] at hfinal
  exact hfinal

theorem kraftSum_le_of_kraftNat (lens : Nat → Nat)
    (hcut : ∀ i, i < 256 → lens i ≤ 12)
    (hnat : kraftNat lens ≤ 2 ^ 12) : kraftSum lens ≤ 1 := by
  have hterm : ∀ i ∈ Finset.range 256,
      (if 0 < lens i then ((2 : ℚ) ^ lens i)⁻¹ else 0) =
      (if 0 < lens i then ((2 : ℚ) ^ (12 - lens i)) else 0) / 2 ^ 12 := by
    intro i hi
    by_cases h : 0 < lens i
    · rw [if_pos h, if_pos h]
      rw [eq_div_iff (by positivity)]
      have h12 : (2 : ℚ) ^ 12 = 2 ^ lens i * 2 ^ (12 - lens i) := by
        rw [← pow_add]
        congr 1
        have := hcut i (Finset.mem_range.1 hi)
        omega
      rw [h12, ← mul_assoc, inv_mul_cancel₀ (by positivity), one_mul]
    · rw [if_neg h, if_neg h, zero_div]
  rw [kraftSum, Finset.sum_congr rfl hterm, ← Finset.sum_div]
  rw [div_le_one (by positivity)]
  have hcast : ∑ i ∈ Finset.range 256,
      (if 0 < lens i then ((2 : ℚ) ^ (12 - lens i)) else 0) =
      ((kraftNat lens : Nat) : ℚ) := by
    rw [kraftNat, Nat.cast_sum]
    apply Finset.sum_congr rfl
    intro i _
    split
    · rw [Nat.cast_pow]
      norm_num
    · norm_num
  rw [hcast]
  calc ((kraftNat lens : Nat) : ℚ) ≤ ((2 ^ 12 : Nat) : ℚ) := Nat.cast_le.2 hnat
    _ = (2 : ℚ) ^ 12 := by norm_num

/-- C2.  For every histogram (in particular any with at least one non-zero
count), the code lengths built by `vcCreateCodec` satisfy the length cutoff
`HUFF_CUTOFF = 12` on every byte with a code, and the Kraft sum
`Σ 2^(-length[i])` over the coded bytes is at most `1`. -/
theorem C2_kraft_and_cutoff (isbig : Nat) (hist : Nat → Nat) (part : Bool)
    (hne : ∃ b, b < 256 ∧ 0 < hist b) :
    (∀ i, 0 < (vcCreateCodec isbig hist part).codelens i →
      (vcCreateCodec isbig hist part).codelens i ≤ 12) ∧
    kraftSum (vcCreateCodec isbig hist part).codelens ≤ 1 := by
  refine ⟨fun i _ => codelens_le_cutoff isbig hist part i, ?_⟩
  exact kraftSum_le_of_kraftNat _
    (fun i _ => codelens_le_cutoff isbig hist part i)
    (kraftNat_le isbig hist part)

/-- Witness for C2 at the two-symbol histogram `histC1` on a little-endian
host without the partial escape. -/
theorem C2_kraft_and_cutoff_witness :
    (∃ b, b < 256 ∧ 0 < histC1 b) ∧
    ((∀ i, 0 < (vcCreateCodec 0 histC1 false).codelens i →
        (vcCreateCodec 0 histC1 false).codelens i ≤ 12) ∧
      kraftSum (vcCreateCodec 0 histC1 false).codelens ≤ 1) :=
  ⟨⟨0, by norm_num, by norm_num [histC1]⟩,
    C2_kraft_and_cutoff 0 histC1 false ⟨0, by norm_num, by norm_num [histC1]⟩⟩

/-! ## C3 (amended): canonical codes and the decode table on tight length tables -/

theorem stripZerosGo_spec (z : Nat) : ∀ (f B llen : Nat), ¬ 2 ∣ B → z ≤ f →
    stripZerosGo f (B * 2 ^ z) llen = (B, llen - z) := by
  induction z with
  | zero =>
      intro f B llen hodd _
      cases f with
      | zero => simp [stripZerosGo]
      | succ f' =>
          show (if B * 2 ^ 0 % 2 = 0 ∧ B * 2 ^ 0 ≠ 0 then _ else _) = _
          rw [if_neg]
          · simp
          · intro hc
            exact hodd (Nat.dvd_of_mod_eq_zero (by simpa using hc.1))
  | succ z' ih =>
      intro f B llen hodd hf
      cases f with
      | zero => omega
      | succ f' =>
          show (if B * 2 ^ (z' + 1) % 2 = 0 ∧ B * 2 ^ (z' + 1) ≠ 0
            then stripZerosGo f' (B * 2 ^ (z' + 1) / 2) (llen - 1)
            else _) = _
          rw [if_pos]
          · have hdiv : B * 2 ^ (z' + 1) / 2 = B * 2 ^ z' := by
              rw [pow_succ, ← mul_assoc]
              exact Nat.mul_div_cancel _ (by norm_num)
            rw [hdiv, ih f' B (llen - 1) hodd (by omega)]
            have : llen - 1 - z' = llen - (z' + 1) := by omega
            rw [this]
          · constructor
            · rw [pow_succ, ← mul_assoc]
              exact Nat.mul_mod_left _ 2
            · have hB : B ≠ 0 := by rintro rfl; exact hodd ⟨0, rfl⟩
              positivity
  
theorem fillOnesGo_spec : ∀ (f b l : Nat), b < 2 ^ l → l + f ≤ 16 →
    fillOnesGo f b l = (b * 2 ^ f + (2 ^ f - 1), l + f) := by
  intro f
  induction f with
  | zero => intro b l _ _; simp [fillOnesGo]
  | succ f' ih =>
      intro b l hb hl
      show fillOnesGo f' ((2 * b + 1) % U16) (l + 1) = _
      have hlt : 2 * b + 1 < 2 ^ (l + 1) := by
        rw [pow_succ]
        omega
      have hsmall : 2 * b + 1 < U16 := by
        have h16 : (2 : Nat) ^ (l + 1) ≤ 2 ^ 16 :=
          Nat.pow_le_pow_right (by norm_num) (by omega)
        have : U16 = 2 ^ 16 := rfl
        omega
      rw [Nat.mod_eq_of_lt hsmall]
      rw [ih (2 * b + 1) (l + 1) hlt (by omega)]
      have he : (2 * b + 1) * 2 ^ f' + (2 ^ f' - 1) =
          b * 2 ^ (f' + 1) + (2 ^ (f' + 1) - 1) := by
        have hp : (2 : Nat) ^ (f' + 1) = 2 ^ f' * 2 := pow_succ 2 f'
        have hpos : (1 : Nat) ≤ 2 ^ f' := Nat.one_le_two_pow
        rw [hp]
        ring_nf
        omega
      rw [he]
      have : l + 1 + f' = l + (f' + 1) := by omega
      rw [this]

theorem cntf_cons (j : Nat) (tl : List Nat) (s n : Nat) :
    cntf (j :: tl) s n = (if n < j then 1 else 0) + cntf tl s n := by
  unfold cntf
  rw [List.filter_cons]
  by_cases h : n < j
  · rw [if_pos (show decide (n < j) = true by simpa using h), if_pos h,
      List.length_cons]
    omega
  · rw [if_neg (show ¬ decide (n < j) = true by simpa using h), if_neg h]
    omega

theorem cntf_anti (js : List Nat) (s : Nat) :
    ∀ n n', n ≤ n' → cntf js s n' ≤ cntf js s n := by
  induction js with
  | nil =>
      intro n n' h
      unfold cntf
      simp only [List.filter_nil, List.length_nil]
      by_cases h1 : n' < s
      · rw [if_pos h1, if_pos (by omega)]
      · rw [if_neg h1]
        omega
  | cons j tl ih =>
      intro n n' h
      rw [cntf_cons, cntf_cons]
      have := ih n n' h
      by_cases h1 : n' < j
      · rw [if_pos h1, if_pos (by omega)]
        omega
      · rw [if_neg h1]
        omega

theorem lengList_pairwise (cb : List Nat) :
    (lengList cb).Pairwise (fun x y => y ≤ x) := by
  rw [List.pairwise_iff_getElem]
  intro i j hi hj hij
  have hL : (lengList cb).length = cb.length := lengList_length cb
  rw [← List.getD_eq_getElem _ 0 hi, ← List.getD_eq_getElem _ 0 hj]
  rw [lengList_getD cb i (by omega), lengList_getD cb j (by omega)]
  exact cntf_anti _ _ i j (by omega)

theorem sumPow_cons (x : Nat) (xs : List Nat) :
    sumPow (x :: xs) = 2 ^ (16 - x) + sumPow xs := by
  unfold sumPow
  rw [List.map_cons, List.sum_cons]

theorem sumPow_take_add_drop (l : List Nat) (k : Nat) :
    sumPow (l.take k) + sumPow (l.drop k) = sumPow l := by
  unfold sumPow
  rw [← List.sum_append, ← List.map_append, List.take_append_drop]

theorem sumPow_pos (x : Nat) (xs : List Nat) : 0 < sumPow (x :: xs) := by
  rw [sumPow_cons]
  have : 0 < 2 ^ (16 - x) := Nat.pos_pow_of_pos _ (by norm_num)
  omega

theorem canonGo_spec : ∀ (ls : List Nat) (b l : Nat),
    b * 2 ^ (16 - l) = sumPow ls →
    b < 2 ^ l → l ≤ 16 →
    ls.Pairwise (fun p q => q ≤ p) →
    (∀ y ∈ ls, y ≤ 16) →
    (canonGo (b, l) ls).length = ls.length ∧
    ∀ n, n < ls.length →
      (canonGo (b, l) ls).getD n 0 * 2 ^ (16 - ls.getD n 0) =
        b * 2 ^ (16 - l) - sumPow (ls.take (n + 1)) ∧
      (canonGo (b, l) ls).getD n 0 < 2 ^ (ls.getD n 0) := by
  intro ls
  induction ls with
  | nil =>
      intro b l _ _ _ _ _
      exact ⟨rfl, fun n hn => absurd hn (by simp)⟩
  | cons x ls' ih =>
      intro b l hR hb hl hmono h16
      have hx16 : x ≤ 16 := h16 x (List.mem_cons_self x ls')
      have htail_le : ∀ y ∈ ls', y ≤ x := (List.pairwise_cons.1 hmono).1
      have hbpos : 0 < b := by
        rcases Nat.eq_zero_or_pos b with h0 | h
        · exfalso
          rw [h0, zero_mul] at hR
          exact absurd hR.symm (Nat.ne_of_gt (sumPow_pos x ls'))
        · exact h
      obtain ⟨z, B, hBodd, hbeq⟩ :=
        Nat.exists_eq_pow_mul_and_not_dvd (Nat.pos_iff_ne_zero.1 hbpos) 2
          (by norm_num)
      have hBpos : 0 < B := by
        rcases Nat.eq_zero_or_pos B with h0 | h
        · exact absurd ⟨0, by omega⟩ (h0 ▸ hBodd)
        · exact h
      have hzl : z < l := by
        have h1 : 2 ^ z ≤ b := by
          calc 2 ^ z = 2 ^ z * 1 := (mul_one _).symm
            _ ≤ 2 ^ z * B := Nat.mul_le_mul_left _ hBpos
            _ = b := hbeq.symm
        have h2 : 2 ^ z < 2 ^ l := lt_of_le_of_lt h1 hb
        exact (Nat.pow_lt_pow_iff_right (by norm_num)).1 h2
      have hstrip : stripZeros b l = (B, l - z) := by
        unfold stripZeros
        rw [hbeq, mul_comm]
        exact stripZerosGo_spec z 16 B l hBodd (by omega)
      -- divisibility: the remaining budget is a multiple of 2^(16-x)
      have hdvd : 2 ^ (16 - x) ∣ sumPow (x :: ls') := by
        unfold sumPow
        apply List.dvd_sum
        intro w hw
        rcases List.mem_map.1 hw with ⟨y, hy, rfl⟩
        have hyx : y ≤ x := by
          rcases List.mem_cons.1 hy with h | h
          · omega
          · exact htail_le y h
        exact pow_dvd_pow 2 (by omega)
      have hcop : Nat.Coprime (2 ^ (16 - x)) B :=
        Nat.Coprime.pow_left _
          ((Nat.Prime.coprime_iff_not_dvd Nat.prime_two).2 hBodd)
      have hdvd2 : 2 ^ (16 - x) ∣ 2 ^ (16 - l + z) := by
        apply hcop.dvd_of_dvd_mul_right
        have harr : 2 ^ (16 - l + z) * B = b * 2 ^ (16 - l) := by
          rw [hbeq, pow_add]
          ring
        rw [harr, hR]
        exact hdvd
      have hlzx : l - z ≤ x := by
        have := (Nat.pow_dvd_pow_iff_le_right (by norm_num : (1:Nat) < 2)).1 hdvd2
        omega
      have hBlt : B < 2 ^ (l - z) := by
        have hsplit : (2 : Nat) ^ l = 2 ^ (l - z) * 2 ^ z := by
          have h := pow_add (2 : Nat) (l - z) z
          rw [show l - z + z = l from by omega] at h
          exact h
        have hb' : B * 2 ^ z < 2 ^ (l - z) * 2 ^ z := by
          rw [← hsplit, mul_comm B (2 ^ z), ← hbeq]
          exact hb
        exact Nat.lt_of_mul_lt_mul_right hb'
      have hBU : B < U16 := by
        have h1 : B ≤ b := by
          calc B = 1 * B := (one_mul _).symm
            _ ≤ 2 ^ z * B := Nat.mul_le_mul_right _ (Nat.one_le_two_pow)
            _ = b := hbeq.symm
        have h2 : (2 : Nat) ^ l ≤ 2 ^ 16 := Nat.pow_le_pow_right (by norm_num) hl
        calc B ≤ b := h1
          _ < 2 ^ l := hb
          _ ≤ 2 ^ 16 := h2
          _ = U16 := rfl
      have hdec : (B + (U16 - 1)) % U16 = B - 1 := by
        have h3 : U16 = 65536 := by norm_num [U16]
        rw [h3]
        have hBU2 : B < 65536 := h3 ▸ hBU
        omega
      have hfill : fillOnes (B - 1) (l - z) x =
          ((B - 1) * 2 ^ (x - (l - z)) + (2 ^ (x - (l - z)) - 1), x) := by
        unfold fillOnes
        rw [fillOnesGo_spec (x - (l - z)) (B - 1) (l - z) (by omega) (by omega)]
        have : l - z + (x - (l - z)) = x := by omega
        rw [this]
      have hcanon : canonGo (b, l) (x :: ls') =
          (fillOnes (((stripZeros b l).1 + (U16 - 1)) % U16)
            (stripZeros b l).2 x).1 ::
          canonGo ((fillOnes (((stripZeros b l).1 + (U16 - 1)) % U16)
            (stripZeros b l).2 x).1,
            (fillOnes (((stripZeros b l).1 + (U16 - 1)) % U16)
            (stripZeros b l).2 x).2) ls' := rfl
      rw [hcanon, hstrip]
      simp only
      rw [hdec, hfill]
      simp only
      -- the new codeword value
      have hS : (2 : Nat) ^ (x - (l - z)) * 2 ^ (16 - x) = 2 ^ (16 - (l - z)) := by
        have h := pow_add (2 : Nat) (x - (l - z)) (16 - x)
        rw [show x - (l - z) + (16 - x) = 16 - (l - z) from by omega] at h
        exact h.symm
      have hkey : B * 2 ^ (16 - (l - z)) = 2 ^ (16 - x) + sumPow ls' := by
        have harr : B * 2 ^ (16 - (l - z)) = b * 2 ^ (16 - l) := by
          rw [hbeq]
          rw [show (16 : Nat) - (l - z) = (16 - l) + z by omega]
          rw [pow_add]
          ring
        rw [harr, hR, sumPow_cons]
      have hTS : (2 : Nat) ^ (16 - x) ≤ 2 ^ (16 - (l - z)) :=
        Nat.pow_le_pow_right (by norm_num) (by omega)
      have hnbR : ((B - 1) * 2 ^ (x - (l - z)) + (2 ^ (x - (l - z)) - 1)) *
          2 ^ (16 - x) = sumPow ls' := by
        have e1 : ((B - 1) * 2 ^ (x - (l - z)) + (2 ^ (x - (l - z)) - 1)) *
            2 ^ (16 - x) =
            (B - 1) * (2 ^ (x - (l - z)) * 2 ^ (16 - x)) +
              (2 ^ (x - (l - z)) - 1) * 2 ^ (16 - x) := by ring
        have e2 : (2 ^ (x - (l - z)) - 1) * 2 ^ (16 - x) =
            2 ^ (16 - (l - z)) - 2 ^ (16 - x) := by
          rw [Nat.sub_mul, one_mul, hS]
        have e3 : (B - 1) * 2 ^ (16 - (l - z)) =
            B * 2 ^ (16 - (l - z)) - 2 ^ (16 - (l - z)) := Nat.sub_one_mul _ _
        rw [e1, hS, e2, e3]
        have h5 : 2 ^ (16 - (l - z)) ≤ B * 2 ^ (16 - (l - z)) :=
          Nat.le_mul_of_pos_left _ hBpos
        have h6 : (1 : Nat) ≤ 2 ^ (16 - x) := Nat.one_le_two_pow
        omega
      have hnb_lt : (B - 1) * 2 ^ (x - (l - z)) + (2 ^ (x - (l - z)) - 1) <
          2 ^ x := by
        have e4 : (2 : Nat) ^ (l - z) * 2 ^ (x - (l - z)) = 2 ^ x := by
          have h := pow_add (2 : Nat) (l - z) (x - (l - z))
          rw [show l - z + (x - (l - z)) = x from by omega] at h
          exact h.symm
        have h4 : (B - 1) * 2 ^ (x - (l - z)) =
            B * 2 ^ (x - (l - z)) - 2 ^ (x - (l - z)) := Nat.sub_one_mul _ _
        have h5 : B * 2 ^ (x - (l - z)) ≤ 2 ^ (l - z) * 2 ^ (x - (l - z)) :=
          Nat.mul_le_mul_right _ (le_of_lt hBlt)
        have h6 : (1 : Nat) ≤ 2 ^ (x - (l - z)) := Nat.one_le_two_pow
        have h7 : (2 : Nat) ^ (x - (l - z)) ≤ B * 2 ^ (x - (l - z)) :=
          Nat.le_mul_of_pos_left _ hBpos
        omega
      obtain ⟨ihlen, ihget⟩ := ih
        ((B - 1) * 2 ^ (x - (l - z)) + (2 ^ (x - (l - z)) - 1)) x hnbR hnb_lt
        hx16 (List.pairwise_cons.1 hmono).2 (fun y hy => h16 y (List.mem_cons_of_mem x hy))
      refine ⟨by rw [List.length_cons, List.length_cons, ihlen], ?_⟩
      intro n hn
      cases n with
      | zero =>
          rw [List.getD_cons_zero, List.getD_cons_zero]
          constructor
          · rw [hnbR, hR]
            have htk : (x :: ls').take 1 = [x] := rfl
            rw [htk]
            have hsp : sumPow [x] = 2 ^ (16 - x) := by
              unfold sumPow
              simp
            rw [hsp, sumPow_cons]
            omega
          · exact hnb_lt
      | succ m =>
          rw [List.getD_cons_succ, List.getD_cons_succ]
          have hm : m < ls'.length := by
            rw [List.length_cons] at hn
            omega
          obtain ⟨hg1, hg2⟩ := ihget m hm
          refine ⟨?_, hg2⟩
          rw [hg1, hnbR, hR]
          have htk : (x :: ls').take (m + 1 + 1) = x :: ls'.take (m + 1) := rfl
          rw [htk, sumPow_cons, sumPow_cons]
          have hbound : sumPow (ls'.take (m + 1)) ≤ sumPow ls' := by
            have := sumPow_take_add_drop ls' (m + 1)
            omega
          omega

theorem canonGo_length : ∀ (ls : List Nat) (st : Nat × Nat),
    (canonGo st ls).length = ls.length := by
  intro ls
  induction ls with
  | nil => intro st; rfl
  | cons x ls ih =>
      intro st
      have h : canonGo st (x :: ls) =
          (fillOnes (((stripZeros st.1 st.2).1 + (U16 - 1)) % U16)
            (stripZeros st.1 st.2).2 x).1 ::
          canonGo ((fillOnes (((stripZeros st.1 st.2).1 + (U16 - 1)) % U16)
            (stripZeros st.1 st.2).2 x).1,
            (fillOnes (((stripZeros st.1 st.2).1 + (U16 - 1)) % U16)
            (stripZeros st.1 st.2).2 x).2) ls := rfl
      rw [h, List.length_cons, ih, List.length_cons]

theorem canonBits_length (l : List Nat) : (canonBits l).length = l.length := by
  cases l with
  | nil => rfl
  | cons l0 ls =>
      have h : canonBits (l0 :: ls) =
          ((2 ^ l0 - 1) % U16) :: canonGo (((2 ^ l0 - 1) % U16), l0) ls := rfl
      rw [h, List.length_cons, canonGo_length, List.length_cons]

theorem canonBits_spec (l : List Nat) (htight : sumPow l = 2 ^ 16)
    (hmono : l.Pairwise (fun p q => q ≤ p)) (h16 : ∀ y ∈ l, y ≤ 16) :
    ∀ n, n < l.length →
      (canonBits l).getD n 0 * 2 ^ (16 - l.getD n 0) =
        2 ^ 16 - sumPow (l.take (n + 1)) ∧
      (canonBits l).getD n 0 < 2 ^ (l.getD n 0) := by
  cases l with
  | nil => exact fun n hn => absurd hn (by simp)
  | cons l0 ls =>
      have hl0 : l0 ≤ 16 := h16 l0 (List.mem_cons_self l0 ls)
      have hp16 : (2 : Nat) ^ l0 ≤ 2 ^ 16 :=
        Nat.pow_le_pow_right (by norm_num) hl0
      have hb0m : (2 ^ l0 - 1) % U16 = 2 ^ l0 - 1 := by
        apply Nat.mod_eq_of_lt
        have hU : U16 = 2 ^ 16 := rfl
        omega
      have hcanon : canonBits (l0 :: ls) =
          ((2 ^ l0 - 1) % U16) :: canonGo (((2 ^ l0 - 1) % U16), l0) ls := rfl
      rw [hcanon, hb0m]
      have hscons : 2 ^ (16 - l0) + sumPow ls = 2 ^ 16 := by
        rw [← sumPow_cons]
        exact htight
      have hpsplit : (2 : Nat) ^ l0 * 2 ^ (16 - l0) = 2 ^ 16 := by
        have h := pow_add (2 : Nat) l0 (16 - l0)
        rw [show l0 + (16 - l0) = 16 from by omega] at h
        exact h.symm
      have h1le : (1 : Nat) ≤ 2 ^ l0 := Nat.one_le_two_pow
      have hR0 : (2 ^ l0 - 1) * 2 ^ (16 - l0) = sumPow ls := by
        rw [Nat.sub_one_mul, hpsplit]
        have hw : (1 : Nat) ≤ 2 ^ (16 - l0) := Nat.one_le_two_pow
        omega
      have hb0lt : 2 ^ l0 - 1 < 2 ^ l0 := by omega
      obtain ⟨glen, gget⟩ := canonGo_spec ls (2 ^ l0 - 1) l0 hR0 hb0lt hl0
        (List.pairwise_cons.1 hmono).2
        (fun y hy => h16 y (List.mem_cons_of_mem l0 hy))
      intro n hn
      cases n with
      | zero =>
          rw [List.getD_cons_zero, List.getD_cons_zero]
          refine ⟨?_, hb0lt⟩
          rw [hR0]
          have htk : (l0 :: ls).take 1 = [l0] := rfl
          rw [htk]
          have hsp : sumPow [l0] = 2 ^ (16 - l0) := by
            unfold sumPow
            simp
          rw [hsp]
          omega
      | succ m =>
          rw [List.getD_cons_succ, List.getD_cons_succ]
          have hm : m < ls.length := by
            rw [List.length_cons] at hn
            omega
          obtain ⟨g1, g2⟩ := gget m hm
          refine ⟨?_, g2⟩
          rw [g1, hR0]
          have htk : (l0 :: ls).take (m + 1 + 1) = l0 :: ls.take (m + 1) := rfl
          rw [htk, sumPow_cons]
          have hbound : sumPow (ls.take (m + 1)) ≤ sumPow ls := by
            have := sumPow_take_add_drop ls (m + 1)
            omega
          omega

theorem sumPow_append (a b : List Nat) :
    sumPow (a ++ b) = sumPow a + sumPow b := by
  unfold sumPow
  rw [List.map_append, List.sum_append]

theorem sumPow_take_succ (l : List Nat) (n : Nat) (hn : n < l.length) :
    sumPow (l.take (n + 1)) = sumPow (l.take n) + 2 ^ (16 - l.getD n 0) := by
  rw [List.take_succ]
  rw [List.getElem?_eq_getElem hn]
  have h : (some l[n]).toList = [l[n]] := rfl
  rw [h, sumPow_append]
  have h2 : sumPow [l[n]] = 2 ^ (16 - l[n]) := by
    unfold sumPow
    simp
  rw [h2, List.getD_eq_getElem _ _ hn]

theorem sumPow_take_mono (l : List Nat) (a b : Nat) (hab : a ≤ b) :
    sumPow (l.take a) ≤ sumPow (l.take b) := by
  have h1 : l.take a = (l.take b).take a := by
    rw [List.take_take, Nat.min_eq_left hab]
  rw [h1]
  have h2 := sumPow_take_add_drop (l.take b) a
  omega

theorem sumPow_take_le (l : List Nat) (k : Nat) :
    sumPow (l.take k) ≤ sumPow l := by
  have := sumPow_take_add_drop l k
  omega

theorem interval_disjoint (leng : List Nat) (htight : sumPow leng = 2 ^ 16)
    (hmono : leng.Pairwise (fun p q => q ≤ p)) (h16 : ∀ y ∈ leng, y ≤ 16)
    (n m : Nat) (hn : n < leng.length) (hm : m < leng.length) (hnm : n < m)
    (v : Nat)
    (hv1 : (canonBits leng).getD n 0 * 2 ^ (16 - leng.getD n 0) ≤ v ∧
      v < (canonBits leng).getD n 0 * 2 ^ (16 - leng.getD n 0) +
        2 ^ (16 - leng.getD n 0))
    (hv2 : (canonBits leng).getD m 0 * 2 ^ (16 - leng.getD m 0) ≤ v ∧
      v < (canonBits leng).getD m 0 * 2 ^ (16 - leng.getD m 0) +
        2 ^ (16 - leng.getD m 0)) : False := by
  obtain ⟨hs1, _⟩ := canonBits_spec leng htight hmono h16 n hn
  obtain ⟨hs2, _⟩ := canonBits_spec leng htight hmono h16 m hm
  rw [hs1] at hv1
  rw [hs2] at hv2
  have hstep : sumPow (leng.take (m + 1)) =
      sumPow (leng.take m) + 2 ^ (16 - leng.getD m 0) :=
    sumPow_take_succ leng m hm
  have hmono2 : sumPow (leng.take (n + 1)) ≤ sumPow (leng.take m) :=
    sumPow_take_mono leng (n + 1) m hnm
  have hle1 : sumPow (leng.take (n + 1)) ≤ 2 ^ 16 := by
    have := sumPow_take_le leng (n + 1)
    omega
  have hle2 : sumPow (leng.take (m + 1)) ≤ 2 ^ 16 := by
    have := sumPow_take_le leng (m + 1)
    omega
  omega

theorem foldl_opt_of_none (P : Nat → Prop) [DecidablePred P] :
    ∀ (l : List Nat) (acc : Option Nat), (∀ j ∈ l, ¬ P j) →
      l.foldl (fun a j => if P j then some j else a) acc = acc := by
  intro l
  induction l with
  | nil => intro acc _; rfl
  | cons x l ih =>
      intro acc h
      rw [List.foldl_cons, if_neg (h x (List.mem_cons_self x l))]
      exact ih acc (fun j hj => h j (List.mem_cons_of_mem x hj))

theorem foldl_opt_unique (P : Nat → Prop) [DecidablePred P] :
    ∀ (l : List Nat) (acc : Option Nat) (i : Nat), i ∈ l → P i →
      (∀ j ∈ l, P j → j = i) →
      l.foldl (fun a j => if P j then some j else a) acc = some i := by
  intro l
  induction l with
  | nil => intro acc i hi _ _; simp at hi
  | cons x l ih =>
      intro acc i hi hPi huniq
      rw [List.foldl_cons]
      by_cases hx : P x
      · have hxi : x = i := huniq x (List.mem_cons_self x l) hx
        subst hxi
        by_cases hmem : x ∈ l
        · exact ih _ x hmem hPi (fun j hj hPj => huniq j (List.mem_cons_of_mem x hj) hPj)
        · rw [if_pos hx]
          apply foldl_opt_of_none
          intro j hj hPj
          exact hmem ((huniq j (List.mem_cons_of_mem x hj) hPj) ▸ hj)
      · rw [if_neg hx]
        have hmem : i ∈ l := by
          rcases List.mem_cons.1 hi with h | h
          · exact absurd (h ▸ hPi) hx
          · exact h
        exact ih acc i hmem hPi (fun j hj hPj => huniq j (List.mem_cons_of_mem x hj) hPj)

theorem foldl_opt_some (P : Nat → Prop) [DecidablePred P] :
    ∀ (l : List Nat) (acc : Option Nat) (i : Nat),
      l.foldl (fun a j => if P j then some j else a) acc = some i →
      acc = some i ∨ (i ∈ l ∧ P i) := by
  intro l
  induction l with
  | nil => intro acc i h; exact Or.inl h
  | cons x l ih =>
      intro acc i h
      rw [List.foldl_cons] at h
      rcases ih _ i h with h1 | h1
      · by_cases hx : P x
        · rw [if_pos hx] at h1
          have hxi : x = i := by
            have := h1
            injection this
          exact Or.inr ⟨hxi ▸ List.mem_cons_self x l, hxi ▸ hx⟩
        · rw [if_neg hx] at h1
          exact Or.inl h1
      · exact Or.inr ⟨List.mem_cons_of_mem x h1.1, h1.2⟩

theorem lengList_mem_le (cb : List Nat) (h256 : cb.length ≤ 256) :
    ∀ y ∈ lengList cb, y ≤ 16 := by
  intro y hy
  obtain ⟨n, hn, hget⟩ := List.mem_iff_getElem.1 hy
  have h12 := (lengList_sum_le cb h256).2 n
    (by rw [← lengList_length cb]; exact hn)
  rw [← List.getD_eq_getElem _ 0 hn] at hget
  omega

theorem codebits_eq_scatter (isbig : Nat) (hist : Nat → Nat) (part : Bool) :
    (vcCreateCodec isbig hist part).codebits =
      scatter (sortedCodes hist part)
        (canonBits (lengList ((sortedCodes hist part).map
          (fun c => hist c % U64)))) := rfl

theorem tables_good (codes leng : List Nat)
    (hnd : codes.Nodup)
    (hLlen : leng.length = codes.length)
    (htight : sumPow leng = 2 ^ 16)
    (hmono : leng.Pairwise (fun p q => q ≤ p))
    (h16 : ∀ y ∈ leng, y ≤ 16)
    (hcodes256 : ∀ b ∈ codes, b < 256) :
    PrefixFree (scatter codes leng) (scatter codes (canonBits leng)) ∧
    ∀ v i, v < 2 ^ 16 →
      (lookupFun (scatter codes leng) (scatter codes (canonBits leng)) v =
          some i ↔
        0 < scatter codes leng i ∧
        v / 2 ^ (16 - scatter codes leng i) =
          scatter codes (canonBits leng) i) := by
  have hdis : ∀ b, 0 < scatter codes leng b →
      ∃ n, n < codes.length ∧ codes.getD n 0 = b ∧
        scatter codes leng b = leng.getD n 0 ∧
        scatter codes (canonBits leng) b = (canonBits leng).getD n 0 := by
    intro b hb
    by_cases hmem : b ∈ codes
    · obtain ⟨n, hn, hget⟩ := List.mem_iff_getElem.1 hmem
      have hgetD : codes.getD n 0 = b := by
        rw [List.getD_eq_getElem _ _ hn, hget]
      refine ⟨n, hn, hgetD, ?_, ?_⟩
      · rw [← hgetD]
        exact scatter_getD _ _ hnd n hn (by rw [hLlen]; exact hn)
      · rw [← hgetD]
        exact scatter_getD _ _ hnd n hn
          (by rw [canonBits_length, hLlen]; exact hn)
    · exfalso
      rw [scatter_not_mem _ _ _ hmem] at hb
      exact absurd hb (by norm_num)
  have hspec := canonBits_spec leng htight hmono h16
  have huniq : ∀ (v b b' : Nat),
      (0 < scatter codes leng b ∧
        scatter codes (canonBits leng) b *
          2 ^ (16 - scatter codes leng b) ≤ v ∧
        v < scatter codes (canonBits leng) b *
          2 ^ (16 - scatter codes leng b) +
          2 ^ (16 - scatter codes leng b)) →
      (0 < scatter codes leng b' ∧
        scatter codes (canonBits leng) b' *
          2 ^ (16 - scatter codes leng b') ≤ v ∧
        v < scatter codes (canonBits leng) b' *
          2 ^ (16 - scatter codes leng b') +
          2 ^ (16 - scatter codes leng b')) →
      b = b' := by
    rintro v b b' ⟨hpb, hb1, hb2⟩ ⟨hpb', hb1', hb2'⟩
    obtain ⟨n, hn, hbn, hln, hbn2⟩ := hdis b hpb
    obtain ⟨m, hm, hbm, hlm, hbm2⟩ := hdis b' hpb'
    rw [hln, hbn2] at hb1 hb2
    rw [hlm, hbm2] at hb1' hb2'
    rcases lt_trichotomy n m with h | h | h
    · exact absurd (interval_disjoint leng htight hmono h16 n m
        (by rw [hLlen]; exact hn) (by rw [hLlen]; exact hm) h v
        ⟨hb1, hb2⟩ ⟨hb1', hb2'⟩) (fun hf => hf)
    · rw [← hbn, ← hbm, h]
    · exact absurd (interval_disjoint leng htight hmono h16 m n
        (by rw [hLlen]; exact hm) (by rw [hLlen]; exact hn) h v
        ⟨hb1', hb2'⟩ ⟨hb1, hb2⟩) (fun hf => hf)
  have hle16 : ∀ b, 0 < scatter codes leng b → scatter codes leng b ≤ 16 := by
    intro b hb
    obtain ⟨n, hn, _, hln, _⟩ := hdis b hb
    rw [hln]
    apply h16
    rw [List.getD_eq_getElem _ 0 (by rw [hLlen]; exact hn)]
    exact List.getElem_mem _
  have hnowrap : ∀ j, 0 < scatter codes leng j →
      (scatter codes (canonBits leng) j *
        2 ^ (16 - scatter codes leng j)) % U16 =
      scatter codes (canonBits leng) j *
        2 ^ (16 - scatter codes leng j) := by
    intro j hj
    obtain ⟨n, hn, _, hln, hbn2⟩ := hdis j hj
    have hn' : n < leng.length := by rw [hLlen]; exact hn
    obtain ⟨hs, _⟩ := hspec n hn'
    rw [hln, hbn2, hs]
    apply Nat.mod_eq_of_lt
    have hstep := sumPow_take_succ leng n hn'
    have hpos : (1 : Nat) ≤ 2 ^ (16 - leng.getD n 0) := Nat.one_le_two_pow
    have hU : U16 = 2 ^ 16 := rfl
    omega
  constructor
  · -- prefix freeness
    intro b b' hne hpb hpb' hlbb' hdiv
    have hl16 := hle16 b hpb
    have hl16' := hle16 b' hpb'
    have hwpos : (0 : Nat) <
        2 ^ (scatter codes leng b' - scatter codes leng b) :=
      Nat.pos_pow_of_pos _ (by norm_num)
    have h1 : scatter codes (canonBits leng) b *
        2 ^ (scatter codes leng b' - scatter codes leng b) ≤
        scatter codes (canonBits leng) b' := by
      rw [← hdiv]
      exact Nat.div_mul_le_self _ _
    have h2 : scatter codes (canonBits leng) b' <
        scatter codes (canonBits leng) b *
          2 ^ (scatter codes leng b' - scatter codes leng b) +
          2 ^ (scatter codes leng b' - scatter codes leng b) := by
      have hdm := Nat.div_add_mod (scatter codes (canonBits leng) b')
        (2 ^ (scatter codes leng b' - scatter codes leng b))
      have hmod := Nat.mod_lt (scatter codes (canonBits leng) b') hwpos
      rw [hdiv] at hdm
      have hcomm : 2 ^ (scatter codes leng b' - scatter codes leng b) *
          scatter codes (canonBits leng) b =
          scatter codes (canonBits leng) b *
          2 ^ (scatter codes leng b' - scatter codes leng b) := mul_comm _ _
      omega
    have hDE : 2 ^ (scatter codes leng b' - scatter codes leng b) *
        2 ^ (16 - scatter codes leng b') =
        2 ^ (16 - scatter codes leng b) := by
      have h := pow_add (2 : Nat)
        (scatter codes leng b' - scatter codes leng b)
        (16 - scatter codes leng b')
      rw [show scatter codes leng b' - scatter codes leng b +
          (16 - scatter codes leng b') = 16 - scatter codes leng b
        from by omega] at h
      exact h.symm
    set v := scatter codes (canonBits leng) b' *
      2 ^ (16 - scatter codes leng b') with hvdef
    have hin' : scatter codes (canonBits leng) b' *
        2 ^ (16 - scatter codes leng b') ≤ v ∧
        v < scatter codes (canonBits leng) b' *
          2 ^ (16 - scatter codes leng b') +
          2 ^ (16 - scatter codes leng b') := by
      have hwp : (0 : Nat) < 2 ^ (16 - scatter codes leng b') :=
        Nat.pos_pow_of_pos _ (by norm_num)
      omega
    have hin : scatter codes (canonBits leng) b *
        2 ^ (16 - scatter codes leng b) ≤ v ∧
        v < scatter codes (canonBits leng) b *
          2 ^ (16 - scatter codes leng b) +
          2 ^ (16 - scatter codes leng b) := by
      constructor
      · calc scatter codes (canonBits leng) b *
            2 ^ (16 - scatter codes leng b)
            = scatter codes (canonBits leng) b *
              (2 ^ (scatter codes leng b' - scatter codes leng b) *
                2 ^ (16 - scatter codes leng b')) := by rw [hDE]
          _ = scatter codes (canonBits leng) b *
              2 ^ (scatter codes leng b' - scatter codes leng b) *
              2 ^ (16 - scatter codes leng b') := by rw [mul_assoc]
          _ ≤ scatter codes (canonBits leng) b' *
              2 ^ (16 - scatter codes leng b') :=
            Nat.mul_le_mul_right _ h1
      · have hmul : scatter codes (canonBits leng) b' *
            2 ^ (16 - scatter codes leng b') <
            (scatter codes (canonBits leng) b *
              2 ^ (scatter codes leng b' - scatter codes leng b) +
              2 ^ (scatter codes leng b' - scatter codes leng b)) *
            2 ^ (16 - scatter codes leng b') :=
          Nat.mul_lt_mul_of_lt_of_le h2 (le_refl _)
            (Nat.pos_pow_of_pos _ (by norm_num))
        calc v = scatter codes (canonBits leng) b' *
              2 ^ (16 - scatter codes leng b') := rfl
          _ < (scatter codes (canonBits leng) b *
                2 ^ (scatter codes leng b' - scatter codes leng b) +
                2 ^ (scatter codes leng b' - scatter codes leng b)) *
              2 ^ (16 - scatter codes leng b') := hmul
          _ = scatter codes (canonBits leng) b *
                2 ^ (16 - scatter codes leng b) +
                2 ^ (16 - scatter codes leng b) := by
              rw [Nat.add_mul, mul_assoc, hDE]
    exact hne (huniq v b b' ⟨hpb, hin⟩ ⟨hpb', hin'⟩)
  · -- lookup characterisation
    intro v i hv
    have hlf : lookupFun (scatter codes leng) (scatter codes (canonBits leng)) v =
        (List.range 256).foldl
          (fun acc j => if 0 < scatter codes leng j ∧
              (scatter codes (canonBits leng) j *
                2 ^ (16 - scatter codes leng j)) % U16 ≤ v ∧
              v < (scatter codes (canonBits leng) j *
                2 ^ (16 - scatter codes leng j)) % U16 +
                2 ^ (16 - scatter codes leng j)
            then some j else acc) none := rfl
    rw [hlf]
    constructor
    · intro hsome
      rcases foldl_opt_some _ (List.range 256) none i hsome with hnone | hgood
      · exact absurd hnone (by simp)
      · obtain ⟨_, hpi, hc1, hc2⟩ := hgood
        rw [hnowrap i hpi] at hc1 hc2
        refine ⟨hpi, ?_⟩
        apply Nat.div_eq_of_lt_le
        · exact hc1
        · rw [Nat.add_mul, one_mul]
          exact hc2
    · rintro ⟨hpi, hdivi⟩
      have hwp : (0 : Nat) < 2 ^ (16 - scatter codes leng i) :=
        Nat.pos_pow_of_pos _ (by norm_num)
      have hstart_le : scatter codes (canonBits leng) i *
          2 ^ (16 - scatter codes leng i) ≤ v := by
        rw [← hdivi]
        exact Nat.div_mul_le_self _ _
      have hvlt : v < scatter codes (canonBits leng) i *
          2 ^ (16 - scatter codes leng i) +
          2 ^ (16 - scatter codes leng i) := by
        have hdm := Nat.div_add_mod v (2 ^ (16 - scatter codes leng i))
        have hmod := Nat.mod_lt v hwp
        rw [hdivi] at hdm
        have hcomm : 2 ^ (16 - scatter codes leng i) *
            scatter codes (canonBits leng) i =
            scatter codes (canonBits leng) i *
            2 ^ (16 - scatter codes leng i) := mul_comm _ _
        omega
      have hi256 : i < 256 := by
        obtain ⟨n, hn, hbn, _, _⟩ := hdis i hpi
        apply hcodes256
        rw [← hbn, List.getD_eq_getElem _ 0 hn]
        exact List.getElem_mem _
      apply foldl_opt_unique _ (List.range 256) none i (List.mem_range.2 hi256)
        ⟨hpi, by rw [hnowrap i hpi]; exact hstart_le,
          by rw [hnowrap i hpi]; exact hvlt⟩
      rintro j _ ⟨hpj, hj1, hj2⟩
      rw [hnowrap j hpj] at hj1 hj2
      exact huniq v j i ⟨hpj, hj1, hj2⟩ ⟨hpi, hstart_le, hvlt⟩

/-- C3 (amended).  On any histogram for which the computed length table is
Kraft-tight — `Σ 2^(16 - leng[n]) = 2^16` over sorted positions, which holds
whenever the `uint64` package sums do not overflow and the qsort comparator
behaves — the canonical code built by `vcCreateCodec` is a prefix code, and
`lookup[v] = i` exactly when `i` is coded and the top `length[i]` bits of
`v` equal `bits[i]`.  (The unrestricted claim fails: see the accompanying
counterexample, where an overflowing histogram yields `bits[i] ≥
2^length[i]`.) -/
theorem C3_prefix_lookup_amended (isbig : Nat) (hist : Nat → Nat) (part : Bool)
    (htight : sumPow (lengList ((sortedCodes hist part).map
      (fun c => hist c % U64))) = 2 ^ 16) :
    PrefixFree (vcCreateCodec isbig hist part).codelens
      (vcCreateCodec isbig hist part).codebits ∧
    ∀ v i, v < 2 ^ 16 →
      ((vcCreateCodec isbig hist part).lookup v = some i ↔
        0 < (vcCreateCodec isbig hist part).codelens i ∧
        v / 2 ^ (16 - (vcCreateCodec isbig hist part).codelens i) =
          (vcCreateCodec isbig hist part).codebits i) := by
  have hcb : ((sortedCodes hist part).map (fun c => hist c % U64)).length =
      (sortedCodes hist part).length := List.length_map _ _
  have h256 : ((sortedCodes hist part).map (fun c => hist c % U64)).length ≤
      256 := le_trans (le_of_eq hcb) (sortedCodes_length_le hist part)
  have h := tables_good (sortedCodes hist part)
    (lengList ((sortedCodes hist part).map (fun c => hist c % U64)))
    (sortedCodes_nodup hist part)
    (by rw [lengList_length]; exact hcb)
    htight
    (lengList_pairwise _)
    (lengList_mem_le _ h256)
    (sortedCodes_lt hist part)
  exact h

/-- Witness for the amended C3 at the tight two-symbol histogram `histC1`. -/
theorem C3_prefix_lookup_amended_witness :
    (sumPow (lengList ((sortedCodes histC1 false).map
      (fun c => histC1 c % U64))) = 2 ^ 16) ∧
    (PrefixFree (vcCreateCodec 0 histC1 false).codelens
        (vcCreateCodec 0 histC1 false).codebits ∧
      ∀ v i, v < 2 ^ 16 →
        ((vcCreateCodec 0 histC1 false).lookup v = some i ↔
          0 < (vcCreateCodec 0 histC1 false).codelens i ∧
          v / 2 ^ (16 - (vcCreateCodec 0 histC1 false).codelens i) =
            (vcCreateCodec 0 histC1 false).codebits i)) :=
  ⟨by decide, C3_prefix_lookup_amended 0 histC1 false (by decide)⟩

end VGP
